import Mathlib

/-!
# Linear_Algebra (coral): dense arithmetic, solve dispatch and the reference LU solver

A shallow embedding of `src/Linear_Algebra.cc`.

* `double` values are modelled by an exact scalar type `K` (a commutative ring for the
  arithmetic primitives, a linearly ordered field for the LU solver), so every statement
  is a statement "in exact arithmetic".
* `unsigned` is 32 bits wide: every `unsigned` product or sum of the source is reduced
  modulo `UINT_MOD`. The accessor `size ()` returns the `unsigned` member `size_`; a
  comparison with `vector::size ()` widens the already reduced product.
* `std::vector<double>` is a `List K`; `v[i]` is `v.getD i 0` and `v[i] = e` is `v.set i e`.
* A member function that mutates a buffer returns a `Run`: the buffer contents when control
  leaves the function and the message of the `Check` that failed, if any.
-/

namespace Linear_Algebra

/-- The modulus of `unsigned` arithmetic: `unsigned` is 32 bits wide. -/
def UINT_MOD : Nat := 4294967296

/-- The product `a*b` of two `unsigned` values. -/
def umul (a b : Nat) : Nat := (a * b) % UINT_MOD

/-- The sum `a+b` of two `unsigned` values. -/
def uadd (a b : Nat) : Nat := (a + b) % UINT_MOD

/-- What a call leaves behind: `state` is the content of the mutable buffers when control
leaves the function, `error` is `none` on a normal return and `some message` when
`Check (.., message)` failed. -/
structure Run (σ : Type) where
  state : σ
  error : Option String
deriving DecidableEq, Repr

/-- Modelled from the spec: `Check.hh` is not among the sources. Per spec sections 4.4 and 7
a violated `Check (condition, message)` is a precondition failure: the operation stops at
once, nothing after the check runs, and the failure is observable by the caller. Here `s`
is the buffer state at the check and `k` the rest of the function body. -/
def Check {σ : Type} (condition : Bool) (message : String) (s : σ) (k : Unit → Run σ) : Run σ :=
  if condition then k () else ⟨s, some message⟩

/-- The loop `for (unsigned i = lo; i < hi; ++i) body`, threading the state `s`. -/
def forLoop {σ : Type} (lo hi : Nat) (body : Nat → σ → σ) (s : σ) : σ :=
  (List.range' lo (hi - lo)).foldl (fun acc i => body i acc) s

section Arithmetic

variable {K : Type} [CommRing K]

/-- `Linear_Algebra::dot` (lines 275-289); the state is the scalar `x_data`. -/
def dot (size : Nat) (a_data b_data : List K) (x_data : K) : Run K :=
  Check (a_data.length == size) "a size" x_data fun _ =>
  Check (b_data.length == size) "b size" x_data fun _ =>
  let sum := forLoop 0 size (fun i sum => sum + a_data.getD i 0 * b_data.getD i 0) (0 : K)
  ⟨sum, none⟩

/-- `Linear_Algebra::cross` (lines 291-304); the state is `x_data`. -/
def cross (size : Nat) (a_data b_data x_data : List K) : Run (List K) :=
  Check (size == 3) "size must be 3 for cross product" x_data fun _ =>
  Check (a_data.length == size) "a size" x_data fun _ =>
  Check (b_data.length == size) "b size" x_data fun _ =>
  Check (x_data.length == size) "x size" x_data fun _ =>
  let x_data := x_data.set 0 (a_data.getD 1 0 * b_data.getD 2 0 - a_data.getD 2 0 * b_data.getD 1 0)
  let x_data := x_data.set 1 (a_data.getD 2 0 * b_data.getD 0 0 - a_data.getD 0 0 * b_data.getD 2 0)
  let x_data := x_data.set 2 (a_data.getD 0 0 * b_data.getD 1 0 - a_data.getD 1 0 * b_data.getD 0 0)
  ⟨x_data, none⟩

/-- `Linear_Algebra::multiply_vector_vector` (lines 362-375). -/
def multiply_vector_vector (size : Nat) (a_data b_data x_data : List K) : Run (List K) :=
  Check (a_data.length == size) "a size" x_data fun _ =>
  Check (b_data.length == size) "b size" x_data fun _ =>
  Check (x_data.length == size) "x size" x_data fun _ =>
  ⟨forLoop 0 size (fun i x => x.set i (a_data.getD i 0 * b_data.getD i 0)) x_data, none⟩

/-- The inner `k` loop of `multiply_matrix_vector` (lines 388-394): the value of `sum`
when the loop over `k` ends, for row `i`. -/
def matrix_vector_sum (size : Nat) (a_data b_data : List K) (i : Nat) : K :=
  forLoop 0 size
    (fun k sum =>
      let index1 := uadd k (umul size i)
      sum + a_data.getD index1 0 * b_data.getD k 0)
    (0 : K)

/-- `Linear_Algebra::multiply_matrix_vector` (lines 377-398). -/
def multiply_matrix_vector (size : Nat) (a_data b_data x_data : List K) : Run (List K) :=
  Check (a_data.length == umul size size) "a size" x_data fun _ =>
  Check (b_data.length == size) "b size" x_data fun _ =>
  Check (x_data.length == size) "x size" x_data fun _ =>
  ⟨forLoop 0 size (fun i x => x.set i (matrix_vector_sum size a_data b_data i)) x_data, none⟩

/-- The inner `k` loop of `multiply_matrix_matrix` (lines 413-420): the value of `sum`
when the loop over `k` ends, for the pair `i`, `j`. -/
def matrix_matrix_sum (size : Nat) (a_data b_data : List K) (i j : Nat) : K :=
  forLoop 0 size
    (fun k sum =>
      let index1 := uadd k (umul size i)
      let index2 := uadd j (umul size k)
      sum + a_data.getD index1 0 * b_data.getD index2 0)
    (0 : K)

/-- `Linear_Algebra::multiply_matrix_matrix` (lines 400-427). The local
`index = j + size()*i` of line 422 is computed and never used; the store of line 424 goes
to `x_data[i + size()*j]`. -/
def multiply_matrix_matrix (size : Nat) (a_data b_data x_data : List K) : Run (List K) :=
  Check (a_data.length == umul size size) "a size" x_data fun _ =>
  Check (b_data.length == umul size size) "b size" x_data fun _ =>
  Check (x_data.length == umul size size) "x size" x_data fun _ =>
  ⟨forLoop 0 size
      (fun i x =>
        forLoop 0 size
          (fun j x =>
            let sum := matrix_matrix_sum size a_data b_data i j
            x.set (uadd i (umul size j)) sum)
          x)
      x_data, none⟩

/-- `Linear_Algebra::multiply` (lines 309-360): the shapes are inferred from the buffer
lengths; the state is `x_data`. -/
def multiply (size : Nat) (a_data b_data x_data : List K) : Run (List K) :=
  let a_vec := a_data.length == size
  let a_mat := a_data.length == umul size size
  let b_vec := b_data.length == size
  let b_mat := b_data.length == umul size size
  let x_vec := x_data.length == size
  let x_mat := x_data.length == umul size size
  Check (a_vec || a_mat) "A size" x_data fun _ =>
  Check (b_vec || b_mat) "B size" x_data fun _ =>
  if a_vec && b_vec then
    Check x_vec "x must be vector" x_data fun _ =>
    multiply_vector_vector size a_data b_data x_data
  else if a_mat && b_vec then
    Check x_vec "x must be vector" x_data fun _ =>
    multiply_matrix_vector size a_data b_data x_data
  else if a_mat && b_mat then
    Check x_mat "x must be matrix" x_data fun _ =>
    multiply_matrix_matrix size a_data b_data x_data
  else
    Check (a_vec && b_mat) "a must be matrix" x_data fun _ =>
    Check false "failed to multiply" x_data fun _ =>
    ⟨x_data, none⟩

end Arithmetic

section GSL

variable {K : Type} [LinearOrderedField K]

/-- The three caller buffers of the solve functions, all passed by mutable reference. -/
structure Buffers (K : Type) where
  a_data : List K
  b_data : List K
  x_data : List K
deriving DecidableEq, Repr

/-! ### The GSL routines called by `gsl_solve`

GSL is an external library. The definitions from `gsl_matrix_get` to `gsl_linalg_LU_solve`
model its routines in exact arithmetic, following spec section 4.2 and the documented
behaviour of the library; a matrix view is the caller's flat buffer with row stride `n`. -/

/-- GSL `gsl_matrix_get` on a row-major block with row stride `tda`: `data[i*tda + j]`. -/
def gsl_matrix_get (tda : Nat) (data : List K) (i j : Nat) : K :=
  data.getD (i * tda + j) 0

/-- GSL `gsl_matrix_set`: `data[i*tda + j] = x`. -/
def gsl_matrix_set (tda : Nat) (data : List K) (i j : Nat) (x : K) : List K :=
  data.set (i * tda + j) x

/-- GSL `gsl_matrix_swap_rows` of an `n` by `n` block: exchanges rows `i` and `j`
element by element. -/
def gsl_matrix_swap_rows (n : Nat) (data : List K) (i j : Nat) : List K :=
  if i = j then data
  else
    forLoop 0 n
      (fun k d =>
        let tmp := gsl_matrix_get n d i k
        gsl_matrix_set n (gsl_matrix_set n d i k (gsl_matrix_get n d j k)) j k tmp)
      data

/-- GSL `gsl_permutation_swap`: exchanges the entries `i` and `j` of the permutation. -/
def gsl_permutation_swap (p : List Nat) (i j : Nat) : List Nat :=
  if i = j then p else (p.set i (p.getD j 0)).set j (p.getD i 0)

/-- The pivot search of `gsl_linalg_LU_decomp`: the first row `i >= j` at which the
absolute value of column `j` is largest (`max` is replaced only on a strict `>`). -/
def LU_pivot (n : Nat) (data : List K) (j : Nat) : Nat :=
  (forLoop (j + 1) n
    (fun i (st : K × Nat) =>
      let aij := |gsl_matrix_get n data i j|
      if aij > st.1 then (aij, i) else st)
    (|gsl_matrix_get n data j j|, j)).2

/-- The elimination of column `j` in `gsl_linalg_LU_decomp`: when the pivot `ajj` is not
zero every row `i > j` stores its multiplier `aij/ajj` in column `j` and subtracts that
multiple of row `j` from its columns `k > j`. -/
def LU_eliminate (n : Nat) (data : List K) (j : Nat) : List K :=
  let ajj := gsl_matrix_get n data j j
  if ajj ≠ 0 then
    forLoop (j + 1) n
      (fun i d =>
        let aij := gsl_matrix_get n d i j / ajj
        let d := gsl_matrix_set n d i j aij
        forLoop (j + 1) n
          (fun k d =>
            let aik := gsl_matrix_get n d i k
            let ajk := gsl_matrix_get n d j k
            gsl_matrix_set n d i k (aik - aij * ajk))
          d)
      data
  else data

/-- The state of `gsl_linalg_LU_decomp`: the matrix block being factorized in place, the
permutation and the sign. -/
structure LU (K : Type) where
  A : List K
  p : List Nat
  signum : Int
deriving DecidableEq, Repr

/-- One pass of the outer loop of `gsl_linalg_LU_decomp` for column `j`: pivot search, row
exchange, elimination. -/
def LU_step (n : Nat) (j : Nat) (s : LU K) : LU K :=
  let i_pivot := LU_pivot n s.A j
  let s : LU K :=
    if i_pivot ≠ j then
      ⟨gsl_matrix_swap_rows n s.A j i_pivot, gsl_permutation_swap s.p j i_pivot, -s.signum⟩
    else s
  ⟨LU_eliminate n s.A j, s.p, s.signum⟩

/-- Modelled from the spec: `gsl_linalg_LU_decomp` belongs to the GSL library and is not
among the sources. Spec section 4.2: "LU decomposition with partial pivoting in place";
the model is GSL's classical loop: for each column `j < N - 1` pick the pivot row, exchange
rows, eliminate below the diagonal, storing `L` below the diagonal and `U` on and above
it in the block that was passed in. -/
def gsl_linalg_LU_decomp (n : Nat) (A : List K) : LU K :=
  forLoop 0 (n - 1) (LU_step n) ⟨A, List.range n, 1⟩

/-- GSL `singular` test of `gsl_linalg_LU_solve`: some diagonal entry of `U` is zero. -/
def singular (n : Nat) (LU : List K) : Bool :=
  (List.range n).any fun i => decide (gsl_matrix_get n LU i i = 0)

/-- GSL `gsl_permute_vector`: `x'[i] = x[p[i]]`. -/
def gsl_permute_vector (p : List Nat) (x : List K) : List K :=
  forLoop 0 p.length (fun i v => v.set i (x.getD (p.getD i 0) 0)) x

/-- Forward substitution `L c = x` with the unit lower triangle of `LU`
(`gsl_blas_dtrsv (CblasLower, CblasNoTrans, CblasUnit, ..)`), in place in `x`. -/
def trsv_lower_unit (n : Nat) (LU x : List K) : List K :=
  forLoop 0 n
    (fun i x =>
      let tmp := forLoop 0 i (fun j tmp => tmp - gsl_matrix_get n LU i j * x.getD j 0) (x.getD i 0)
      x.set i tmp)
    x

/-- Back substitution `U x = c` with the upper triangle of `LU`
(`gsl_blas_dtrsv (CblasUpper, CblasNoTrans, CblasNonUnit, ..)`), in place in `x`; the rows
are visited from `n - 1` down to `0`. -/
def trsv_upper_nonunit (n : Nat) (LU x : List K) : List K :=
  forLoop 0 n
    (fun t x =>
      let i := n - 1 - t
      let tmp := forLoop (i + 1) n (fun j tmp => tmp - gsl_matrix_get n LU i j * x.getD j 0) (x.getD i 0)
      x.set i (tmp / gsl_matrix_get n LU i i))
    x

/-- Modelled from the spec: `gsl_linalg_LU_solve` belongs to the GSL library and is not
among the sources. Spec section 4.2: "forward/back substitution against b to produce x",
failing "with SingularMatrix" on a zero pivot. `b` is read only: it is copied into `x`,
which is then permuted and solved in place. `none` is the GSL error "matrix is singular". -/
def gsl_linalg_LU_solve (n : Nat) (LU : List K) (p : List Nat) (b x : List K) : Option (List K) :=
  if singular n LU then none
  else
    let x := forLoop 0 n (fun i v => v.set i (b.getD i 0)) x
    let x := gsl_permute_vector p x
    let x := trsv_lower_unit n LU x
    let x := trsv_upper_nonunit n LU x
    some x

/-- `Linear_Algebra::gsl_solve` (lines 72-96). `gsl_matrix_view_array (&a_data[0], ..)` is
a view of the caller's buffer, not a copy, so the factorization is written into `a_data`;
`b` is a view that GSL only reads; `x` is a view that receives the solution. -/
def gsl_solve (size : Nat) (a_data b_data x_data : List K) : Run (Buffers K) :=
  Check (a_data.length == umul size size) "A size" ⟨a_data, b_data, x_data⟩ fun _ =>
  Check (b_data.length == size) "b size" ⟨a_data, b_data, x_data⟩ fun _ =>
  Check (x_data.length == size) "x size" ⟨a_data, b_data, x_data⟩ fun _ =>
  let lu := gsl_linalg_LU_decomp size a_data
  match gsl_linalg_LU_solve size lu.A lu.p b_data x_data with
  | some x => ⟨⟨lu.A, b_data, x⟩, none⟩
  | none => ⟨⟨lu.A, b_data, x_data⟩, some "matrix is singular"⟩

/-- The calling convention shared by the solve strategies. -/
abbrev Solver (K : Type) : Type := Nat → List K → List K → List K → Run (Buffers K)

/-- `Linear_Algebra::solve` (lines 47-69). The Direct-Large-Dense adapter wraps an
external engine and is a parameter. -/
def solve (epetra_solve : Solver K) (size : Nat) (a_data b_data x_data : List K) :
    Run (Buffers K) :=
  Check (a_data.length == umul size size) "A size" ⟨a_data, b_data, x_data⟩ fun _ =>
  Check (b_data.length == size) "b size" ⟨a_data, b_data, x_data⟩ fun _ =>
  Check (x_data.length == size) "x size" ⟨a_data, b_data, x_data⟩ fun _ =>
  if size < 300 then gsl_solve size a_data b_data x_data
  else epetra_solve size a_data b_data x_data

/-- The solve strategies of spec section 3. -/
inductive Strategy where
  | Direct_Small
  | Direct_Large_Dense
  | Direct_Sparse
  | Iterative_Krylov
deriving DecidableEq, Repr

/-- The strategy-selection hook: the branch taken by `solve` (lines 57-68) as a function
of the problem size. -/
def solve_strategy (size : Nat) : Strategy :=
  if size < 300 then Strategy.Direct_Small else Strategy.Direct_Large_Dense

/-- The member function behind each strategy; the three adapters of external engines are
parameters. -/
def strategy_solver (epetra_solve amesos_solve aztec_solve : Solver K) : Strategy → Solver K
  | Strategy.Direct_Small => gsl_solve
  | Strategy.Direct_Large_Dense => epetra_solve
  | Strategy.Direct_Sparse => amesos_solve
  | Strategy.Iterative_Krylov => aztec_solve

/-- An instrumented stand-in for the Direct-Large-Dense adapter: it touches no buffer and
reports that it was invoked. -/
def epetra_probe : Solver K :=
  fun _ a_data b_data x_data => ⟨⟨a_data, b_data, x_data⟩, some "epetra_solve invoked"⟩

end GSL

section Krylov

variable {K : Type} [LinearOrderedField K]

/-- The conversion of a `double` initializer to `int`: truncation toward zero. The literal
is read as the rational it denotes; the nearest `double` of `1.0E-6` lies strictly between
`0` and `1` as well and truncates to the same `int`. -/
def double_to_int (d : ℚ) : Int := Int.tdiv d.num d.den

/-- `Linear_Algebra::aztec_solve` (lines 226-271). The AztecOO engine is external: `Iterate`
stands for `solver.Iterate (max_iterations, tolerance)` on the problem built from the three
buffers. Both locals are declared `int const` (lines 239-240); `Iterate` takes the
tolerance as a `double`, so the `int` is converted back. -/
def aztec_solve (Iterate : Int → K → Solver K) (size : Nat) (a_data b_data x_data : List K) :
    Run (Buffers K) :=
  Check (a_data.length == umul size size) "A size" ⟨a_data, b_data, x_data⟩ fun _ =>
  Check (b_data.length == size) "b size" ⟨a_data, b_data, x_data⟩ fun _ =>
  Check (x_data.length == size) "x size" ⟨a_data, b_data, x_data⟩ fun _ =>
  let max_iterations : Int := 10000
  let tolerance : Int := double_to_int 1.0E-6
  Iterate max_iterations (tolerance : K) size a_data b_data x_data

end Krylov

/-! ## The products as the specification words them -/

section Words

variable {K : Type} [CommRing K]

/-- The specification's matrix-vector entry, `x[i] = Σ_k a[k + n·i]·b[k]`, accumulated
left to right from `0`. -/
def row_major_apply (n : Nat) (a b : List K) (i : Nat) : K :=
  (List.range n).foldl (fun sum k => sum + a.getD (k + n * i) 0 * b.getD k 0) 0

/-- The specification's matrix-matrix entry for row `i` and column `j` in the row-major
convention, `Σ_k a[k + n·i]·b[j + n·k]`, accumulated left to right from `0`. -/
def row_major_product (n : Nat) (a b : List K) (i j : Nat) : K :=
  (List.range n).foldl (fun sum k => sum + a.getD (k + n * i) 0 * b.getD (j + n * k) 0) 0

end Words

/-! ## Notions used to state the factorization -/

section Notions

variable {K : Type} [LinearOrderedField K]

/-- The `U` factor read off a packed block: the entries on and above the diagonal. -/
def upper (M : Nat → Nat → K) (t k : Nat) : K := if t ≤ k then M t k else 0

/-- The invariant of the outer loop of the decomposition before column `j` is processed:
row `i` of the row-permuted original is what the stored multipliers of the columns before
`j` rebuild from the finished rows of `U` and the part still to be eliminated. -/
def LU_inv (n : Nat) (A0 : Nat → Nat → K) (j : Nat) (M : Nat → Nat → K) (p : Nat → Nat) : Prop :=
  ∀ i k, i < n → k < n →
    A0 (p i) k
      = (∑ t in Finset.range (min i j), M i t * upper M t k)
        + (if i < j then upper M i k else if j ≤ k then M i k else 0)

/-- What holds of the decomposition state before column `j` is processed: the block and the
permutation keep their sizes, every row index is still listed by the permutation, and the
loop invariant holds against the original block `a`. -/
def LU_good (n : Nat) (a : List K) (j : Nat) (s : LU K) : Prop :=
  s.A.length = n * n ∧ s.p.length = n ∧ (∀ v, v < n → ∃ r, r < n ∧ s.p.getD r 0 = v) ∧
  LU_inv n (gsl_matrix_get n a) j (gsl_matrix_get n s.A) (fun r => s.p.getD r 0)

end Notions

/-! ## Loops -/

theorem forLoop_empty {σ : Type} (lo hi : Nat) (body : Nat → σ → σ) (s : σ) (h : hi ≤ lo) :
    forLoop lo hi body s = s := by
  simp [forLoop, Nat.sub_eq_zero_of_le h]

theorem forLoop_succ {σ : Type} (lo hi : Nat) (body : Nat → σ → σ) (s : σ) (h : lo ≤ hi) :
    forLoop lo (hi + 1) body s = body hi (forLoop lo hi body s) := by
  unfold forLoop
  have e : hi + 1 - lo = (hi - lo) + 1 := by omega
  rw [e, List.range'_concat, List.foldl_append]
  simp
  congr 1
  omega

theorem forLoop_congr {σ : Type} (lo hi : Nat) (f g : Nat → σ → σ) (s : σ)
    (h : ∀ i, lo ≤ i → i < hi → ∀ t, f i t = g i t) :
    forLoop lo hi f s = forLoop lo hi g s := by
  induction hi with
  | zero => simp [forLoop]
  | succ m ih =>
    by_cases hm : lo ≤ m
    · rw [forLoop_succ _ _ _ _ hm, forLoop_succ _ _ _ _ hm, ih, h m hm (Nat.lt_succ_self m)]
      intro i h1 h2 t
      exact h i h1 (Nat.lt_succ_of_lt h2) t
    · rw [forLoop_empty _ _ _ _ (by omega), forLoop_empty _ _ _ _ (by omega)]

/-- An invariant `P m` (the state after the passes `lo .. m-1`) is carried through a loop. -/
theorem forLoop_induction {σ : Type} (lo hi : Nat) (body : Nat → σ → σ) (s : σ)
    (P : Nat → σ → Prop) (hlo : lo ≤ hi) (h0 : P lo s)
    (hstep : ∀ m t, lo ≤ m → m < hi → P m t → P (m + 1) (body m t)) :
    P hi (forLoop lo hi body s) := by
  induction hi with
  | zero =>
    have : lo = 0 := by omega
    subst this
    simpa [forLoop] using h0
  | succ m ih =>
    by_cases hm : lo ≤ m
    · rw [forLoop_succ _ _ _ _ hm]
      apply hstep m _ hm (Nat.lt_succ_self m)
      apply ih hm
      intro k t h1 h2 h3
      exact hstep k t h1 (Nat.lt_succ_of_lt h2) h3
    · have : lo = m + 1 := by omega
      subst this
      rw [forLoop_empty _ _ _ _ (le_refl _)]
      exact h0

theorem getD_set_eq {α : Type} (l : List α) (i : Nat) (v d : α) (h : i < l.length) :
    (l.set i v).getD i d = v := by
  simp [List.getD_eq_getElem?_getD, List.getElem?_set, h]

theorem getD_set_ne {α : Type} (l : List α) (i j : Nat) (v d : α) (h : i ≠ j) :
    (l.set i v).getD j d = l.getD j d := by
  simp [List.getD_eq_getElem?_getD, List.getElem?_set, h]

/-- A loop that stores `f i` at position `i` for every `i < m`. -/
theorem forLoop_set {α : Type} (f : Nat → α) (x : List α) (d : α) (m : Nat) (hm : m ≤ x.length) :
    (forLoop 0 m (fun i v => v.set i (f i)) x).length = x.length ∧
    ∀ i, (forLoop 0 m (fun i v => v.set i (f i)) x).getD i d = if i < m then f i else x.getD i d := by
  induction m with
  | zero => simp [forLoop]
  | succ k ih =>
    obtain ⟨hl, hg⟩ := ih (by omega)
    rw [forLoop_succ _ _ _ _ (Nat.zero_le k)]
    refine ⟨by simp [hl], fun i => ?_⟩
    by_cases hik : k = i
    · subst hik
      rw [getD_set_eq _ _ _ _ (by omega)]
      simp
    · rw [getD_set_ne _ _ _ _ _ hik, hg]
      by_cases h1 : i < k
      · simp [h1, Nat.lt_succ_of_lt h1]
      · have : ¬ i < k + 1 := by omega
        simp [h1, this]

theorem list_ext_getD {α : Type} (l1 l2 : List α) (d : α) (hl : l1.length = l2.length)
    (h : ∀ i, i < l1.length → l1.getD i d = l2.getD i d) : l1 = l2 := by
  apply List.ext_getElem hl
  intro i h1 h2
  have := h i h1
  simpa [List.getD_eq_getElem?_getD, List.getElem?_eq_getElem, h1, h2] using this

/-! ## Unsigned index arithmetic -/

theorem umul_small (n i : Nat) (hn : n < 65536) (hi : i ≤ n) : umul n i = n * i := by
  unfold umul UINT_MOD
  apply Nat.mod_eq_of_lt
  have : n * i ≤ 65535 * 65535 := Nat.mul_le_mul (by omega) (by omega)
  omega

theorem uadd_umul_small (n i k : Nat) (hn : n < 65536) (hi : i < n) (hk : k < n) :
    uadd k (umul n i) = k + n * i := by
  rw [umul_small n i hn (by omega)]
  unfold uadd UINT_MOD
  apply Nat.mod_eq_of_lt
  have : n * i ≤ 65535 * 65535 := Nat.mul_le_mul (by omega) (by omega)
  omega

/-! ## multiply -/

section MultiplyFacts

variable {K : Type} [CommRing K]

theorem forLoop_zero_eq_foldl {σ : Type} (n : Nat) (body : Nat → σ → σ) (s : σ) :
    forLoop 0 n body s = (List.range n).foldl (fun acc i => body i acc) s := by
  simp [forLoop, List.range_eq_range']

theorem matrix_vector_sum_eq (n : Nat) (a b : List K) (i : Nat) (hn : n < 65536) (hi : i < n) :
    matrix_vector_sum n a b i = row_major_apply n a b i := by
  unfold matrix_vector_sum row_major_apply
  rw [← forLoop_zero_eq_foldl]
  apply forLoop_congr
  intro k _ hk t
  simp only [uadd_umul_small n i k hn hi hk]

theorem matrix_matrix_sum_eq (n : Nat) (a b : List K) (i j : Nat) (hn : n < 65536)
    (hi : i < n) (hj : j < n) : matrix_matrix_sum n a b i j = row_major_product n a b i j := by
  unfold matrix_matrix_sum row_major_product
  rw [← forLoop_zero_eq_foldl]
  apply forLoop_congr
  intro k _ hk t
  simp only [uadd_umul_small n i k hn hi hk, uadd_umul_small n k j hn hk hj]

theorem multiply_of_matrix_vector (n : Nat) (a b x : List K) (hn : n < 65536) (h2 : 2 ≤ n)
    (ha : a.length = n * n) (hb : b.length = n) (hx : x.length = n) :
    multiply n a b x
      = ⟨forLoop 0 n (fun i x => x.set i (matrix_vector_sum n a b i)) x, none⟩ := by
  have hne : n * n ≠ n := by
    intro h
    have : n * 2 ≤ n * n := Nat.mul_le_mul_left n h2
    omega
  simp [multiply, multiply_matrix_vector, Check, ha, hb, hx, umul_small n n hn (le_refl n), hne]

theorem multiply_of_vector_vector (n : Nat) (a b x : List K)
    (ha : a.length = n) (hb : b.length = n) (hx : x.length = n) :
    multiply n a b x
      = ⟨forLoop 0 n (fun i x => x.set i (a.getD i 0 * b.getD i 0)) x, none⟩ := by
  simp [multiply, multiply_vector_vector, Check, ha, hb, hx]

/-- A failed `Check` leaves the state it was given, when the continuation does. -/
theorem Check_frame {σ : Type} (c : Bool) (m : String) (s : σ) (k : Unit → Run σ)
    (hk : (k ()).error ≠ none → (k ()).state = s) :
    (Check c m s k).error ≠ none → (Check c m s k).state = s := by
  cases c
  · intro _
    rfl
  · simpa [Check] using hk

theorem multiply_vector_vector_frame (n : Nat) (a b x : List K) :
    (multiply_vector_vector n a b x).error ≠ none → (multiply_vector_vector n a b x).state = x := by
  unfold multiply_vector_vector
  refine Check_frame _ _ _ _ (Check_frame _ _ _ _ (Check_frame _ _ _ _ ?_))
  intro h
  exact absurd rfl h

theorem multiply_matrix_vector_frame (n : Nat) (a b x : List K) :
    (multiply_matrix_vector n a b x).error ≠ none → (multiply_matrix_vector n a b x).state = x := by
  unfold multiply_matrix_vector
  refine Check_frame _ _ _ _ (Check_frame _ _ _ _ (Check_frame _ _ _ _ ?_))
  intro h
  exact absurd rfl h

theorem multiply_matrix_matrix_frame (n : Nat) (a b x : List K) :
    (multiply_matrix_matrix n a b x).error ≠ none → (multiply_matrix_matrix n a b x).state = x := by
  unfold multiply_matrix_matrix
  refine Check_frame _ _ _ _ (Check_frame _ _ _ _ (Check_frame _ _ _ _ ?_))
  intro h
  exact absurd rfl h

theorem multiply_frame (n : Nat) (a b x : List K) :
    (multiply n a b x).error ≠ none → (multiply n a b x).state = x := by
  unfold multiply
  refine Check_frame _ _ _ _ (Check_frame _ _ _ _ ?_)
  split_ifs
  · exact Check_frame _ _ _ _ (multiply_vector_vector_frame n a b x)
  · exact Check_frame _ _ _ _ (multiply_matrix_vector_frame n a b x)
  · exact Check_frame _ _ _ _ (multiply_matrix_matrix_frame n a b x)
  · refine Check_frame _ _ _ _ (Check_frame _ _ _ _ ?_)
    intro h
    exact absurd rfl h

/-- With `size = 65536` the `unsigned` product `size()*size()` is `0`: a first operand of
length `65536 * 65536` is neither a vector nor a matrix for `multiply`. -/
theorem multiply_wrapped_A (a b x : List K) (ha : a.length = 65536 * 65536) :
    multiply 65536 a b x = ⟨x, some "A size"⟩ := by
  simp [multiply, Check, umul, UINT_MOD, ha]

theorem multiply_wrapped_B (a b x : List K) (ha : a.length = 65536)
    (hb : b.length = 65536 * 65536) :
    multiply 65536 a b x = ⟨x, some "B size"⟩ := by
  simp [multiply, Check, umul, UINT_MOD, ha, hb]

end MultiplyFacts

/-! ## The LU decomposition -/

section LUFacts

variable {K : Type} [LinearOrderedField K]

theorem flat_index_lt (n i k : Nat) (hi : i < n) (hk : k < n) : i * n + k < n * n := by
  have : (i + 1) * n ≤ n * n := Nat.mul_le_mul_right n hi
  have e : (i + 1) * n = i * n + n := by ring
  omega

theorem flat_index_inj (n i k i' k' : Nat) (hk : k < n) (hk' : k' < n)
    (h : i * n + k = i' * n + k') : i = i' ∧ k = k' := by
  have hn : 0 < n := by omega
  have h1 : (i * n + k) / n = i := by
    rw [Nat.mul_comm, Nat.mul_add_div hn, Nat.div_eq_of_lt hk, Nat.add_zero]
  have h2 : (i' * n + k') / n = i' := by
    rw [Nat.mul_comm, Nat.mul_add_div hn, Nat.div_eq_of_lt hk', Nat.add_zero]
  have hi : i = i' := by rw [← h1, h, h2]
  subst hi
  exact ⟨rfl, by omega⟩

omit [LinearOrderedField K] in
theorem gsl_matrix_set_length (n : Nat) (d : List K) (i k : Nat) (v : K) :
    (gsl_matrix_set n d i k v).length = d.length := by
  simp [gsl_matrix_set]

theorem gsl_matrix_get_set (n : Nat) (d : List K) (i k i' k' : Nat) (v : K)
    (hd : d.length = n * n) (hi : i < n) (hk : k < n) (hk' : k' < n) :
    gsl_matrix_get n (gsl_matrix_set n d i k v) i' k'
      = if i' = i ∧ k' = k then v else gsl_matrix_get n d i' k' := by
  unfold gsl_matrix_get gsl_matrix_set
  by_cases h : i * n + k = i' * n + k'
  · obtain ⟨h1, h2⟩ := flat_index_inj n i k i' k' hk hk' h
    subst h1 h2
    rw [getD_set_eq _ _ _ _ (by rw [hd]; exact flat_index_lt n i k hi hk)]
    simp
  · rw [getD_set_ne _ _ _ _ _ h]
    have : ¬ (i' = i ∧ k' = k) := by
      rintro ⟨rfl, rfl⟩
      exact h rfl
    simp [this]

/-- `gsl_matrix_swap_rows` exchanges the two rows and keeps every other entry. -/
theorem gsl_matrix_swap_rows_spec (n : Nat) (d : List K) (i j : Nat)
    (hd : d.length = n * n) (hi : i < n) (hj : j < n) :
    (gsl_matrix_swap_rows n d i j).length = n * n ∧
    ∀ r c, c < n →
      gsl_matrix_get n (gsl_matrix_swap_rows n d i j) r c
        = if r = i then gsl_matrix_get n d j c
          else if r = j then gsl_matrix_get n d i c else gsl_matrix_get n d r c := by
  unfold gsl_matrix_swap_rows
  by_cases hij : i = j
  · subst hij
    rw [if_pos rfl]
    refine ⟨hd, fun r c _ => ?_⟩
    by_cases hr : r = i
    · simp [hr]
    · simp [hr]
  · simp only [if_neg hij]
    have key := forLoop_induction 0 n
      (fun k d =>
        let tmp := gsl_matrix_get n d i k
        gsl_matrix_set n (gsl_matrix_set n d i k (gsl_matrix_get n d j k)) j k tmp) d
      (fun m e => e.length = n * n ∧ ∀ r c, c < n →
        gsl_matrix_get n e r c
          = if c < m then
              (if r = i then gsl_matrix_get n d j c
               else if r = j then gsl_matrix_get n d i c else gsl_matrix_get n d r c)
            else gsl_matrix_get n d r c)
      (Nat.zero_le n) ⟨hd, fun r c _ => by simp⟩
      (by
        intro m e _ hm ⟨hl, he⟩
        refine ⟨by simp [gsl_matrix_set_length, hl], fun r c hc => ?_⟩
        simp only []
        rw [gsl_matrix_get_set n _ j m r c _ (by simp [gsl_matrix_set_length, hl]) hj hm hc,
          gsl_matrix_get_set n _ i m r c _ hl hi hm hc, he i m hm, he j m hm, he r c hc]
        by_cases hcm : c = m
        · subst hcm
          by_cases hrj : r = j
          · subst hrj
            simp [Ne.symm hij]
          · by_cases hri : r = i
            · subst hri
              simp [hrj]
            · simp [hrj, hri]
        · have h1 : ¬ (r = j ∧ c = m) := fun h => hcm h.2
          have h2 : ¬ (r = i ∧ c = m) := fun h => hcm h.2
          by_cases hlt : c < m
          · simp [h1, h2, hlt, Nat.lt_succ_of_lt hlt]
          · have : ¬ c < m + 1 := by omega
            simp [h1, h2, hlt, this])
    refine ⟨key.1, fun r c hc => ?_⟩
    rw [key.2 r c hc, if_pos hc]


/-- `gsl_permutation_swap` exchanges two entries and keeps the others. -/
theorem gsl_permutation_swap_spec (p : List Nat) (i j : Nat) (hi : i < p.length)
    (hj : j < p.length) :
    (gsl_permutation_swap p i j).length = p.length ∧
    ∀ r, (gsl_permutation_swap p i j).getD r 0
        = if r = i then p.getD j 0 else if r = j then p.getD i 0 else p.getD r 0 := by
  unfold gsl_permutation_swap
  by_cases hij : i = j
  · subst hij
    rw [if_pos rfl]
    refine ⟨rfl, fun r => ?_⟩
    by_cases hr : r = i <;> simp [hr]
  · simp only [if_neg hij]
    refine ⟨by simp, fun r => ?_⟩
    by_cases hrj : r = j
    · subst hrj
      rw [getD_set_eq _ _ _ _ (by simpa using hj)]
      simp [Ne.symm hij]
    · rw [getD_set_ne _ _ _ _ _ (Ne.symm hrj)]
      by_cases hri : r = i
      · subst hri
        rw [getD_set_eq _ _ _ _ hi]
        simp
      · rw [getD_set_ne _ _ _ _ _ (Ne.symm hri)]
        simp [hrj, hri]

/-- The pivot row lies in `j .. n-1` and carries the largest absolute value of column `j`
among those rows. -/
theorem LU_pivot_spec (n : Nat) (d : List K) (j : Nat) (hj : j < n) :
    j ≤ LU_pivot n d j ∧ LU_pivot n d j < n ∧
    ∀ i, j ≤ i → i < n → |gsl_matrix_get n d i j| ≤ |gsl_matrix_get n d (LU_pivot n d j) j| := by
  unfold LU_pivot
  have key := forLoop_induction (j + 1) n
    (fun i (st : K × Nat) =>
      let aij := |gsl_matrix_get n d i j|
      if aij > st.1 then (aij, i) else st)
    (|gsl_matrix_get n d j j|, j)
    (fun m st => st.1 = |gsl_matrix_get n d st.2 j| ∧ j ≤ st.2 ∧ st.2 < m ∧
      ∀ i, j ≤ i → i < m → |gsl_matrix_get n d i j| ≤ st.1)
    (by omega)
    ⟨rfl, le_refl j, Nat.lt_succ_self j, fun i h1 h2 => by
      have : i = j := by omega
      subst this
      exact le_refl _⟩
    (by
      intro m st h1 h2 ⟨e, hlo, hhi, hmax⟩
      simp only []
      by_cases hgt : |gsl_matrix_get n d m j| > st.1
      · rw [if_pos hgt]
        refine ⟨rfl, by omega, Nat.lt_succ_self m, fun i hi1 hi2 => ?_⟩
        by_cases him : i = m
        · subst him
          exact le_refl _
        · exact le_trans (hmax i hi1 (by omega)) (le_of_lt hgt)
      · rw [if_neg hgt]
        refine ⟨e, hlo, by omega, fun i hi1 hi2 => ?_⟩
        by_cases him : i = m
        · subst him
          exact not_lt.mp hgt
        · exact hmax i hi1 (by omega))
  obtain ⟨e, hlo, hhi, hmax⟩ := key
  refine ⟨hlo, hhi, fun i h1 h2 => ?_⟩
  rw [← e]
  exact hmax i h1 h2


/-- The inner `k` loop of the elimination: row `i` loses `aij` times row `j` in the columns
to the right of `j`. -/
theorem LU_eliminate_row_spec (n : Nat) (d : List K) (i j : Nat) (aij : K)
    (hd : d.length = n * n) (hi : i < n) (hj : j < n) (hij : i ≠ j) :
    (forLoop (j + 1) n
      (fun k d =>
        let aik := gsl_matrix_get n d i k
        let ajk := gsl_matrix_get n d j k
        gsl_matrix_set n d i k (aik - aij * ajk)) d).length = n * n ∧
    ∀ r c, c < n →
      gsl_matrix_get n (forLoop (j + 1) n
        (fun k d =>
          let aik := gsl_matrix_get n d i k
          let ajk := gsl_matrix_get n d j k
          gsl_matrix_set n d i k (aik - aij * ajk)) d) r c
        = if r = i ∧ j < c then gsl_matrix_get n d r c - aij * gsl_matrix_get n d j c
          else gsl_matrix_get n d r c := by
  have key := forLoop_induction (j + 1) n
    (fun k d =>
      let aik := gsl_matrix_get n d i k
      let ajk := gsl_matrix_get n d j k
      gsl_matrix_set n d i k (aik - aij * ajk)) d
    (fun m e => e.length = n * n ∧ ∀ r c, c < n →
      gsl_matrix_get n e r c
        = if r = i ∧ j < c ∧ c < m then gsl_matrix_get n d r c - aij * gsl_matrix_get n d j c
          else gsl_matrix_get n d r c)
    (by omega)
    ⟨hd, fun r c _ => by
      have : ¬ (r = i ∧ j < c ∧ c < j + 1) := by omega
      rw [if_neg this]⟩
    (by
      intro m e h1 h2 ⟨hl, he⟩
      refine ⟨by simp [gsl_matrix_set_length, hl], fun r c hc => ?_⟩
      simp only []
      rw [gsl_matrix_get_set n e i m r c _ hl hi h2 hc, he i m h2, he j m h2, he r c hc]
      have e1 : ¬ (i = i ∧ j < m ∧ m < m) := by omega
      have e2 : ¬ (j = i ∧ j < m ∧ m < m) := by omega
      rw [if_neg e1, if_neg e2]
      by_cases hrc : r = i ∧ c = m
      · obtain ⟨rfl, rfl⟩ := hrc
        have e3 : r = r ∧ j < c ∧ c < c + 1 := ⟨rfl, by omega, by omega⟩
        rw [if_pos ⟨rfl, rfl⟩, if_pos e3]
      · rw [if_neg hrc]
        by_cases h3 : r = i ∧ j < c ∧ c < m
        · have e4 : r = i ∧ j < c ∧ c < m + 1 := ⟨h3.1, h3.2.1, by omega⟩
          rw [if_pos h3, if_pos e4]
        · have e4 : ¬ (r = i ∧ j < c ∧ c < m + 1) := by
            rintro ⟨a1, a2, a3⟩
            have : c ≠ m := fun h => hrc ⟨a1, h⟩
            exact h3 ⟨a1, a2, by omega⟩
          rw [if_neg h3, if_neg e4])
  refine ⟨key.1, fun r c hc => ?_⟩
  rw [key.2 r c hc]
  by_cases h : r = i ∧ j < c
  · rw [if_pos h, if_pos ⟨h.1, h.2, hc⟩]
  · have : ¬ (r = i ∧ j < c ∧ c < n) := fun h' => h ⟨h'.1, h'.2.1⟩
    rw [if_neg h, if_neg this]

/-- The entries after the elimination of column `j` with a non-zero pivot. -/
theorem LU_eliminate_spec (n : Nat) (d : List K) (j : Nat)
    (hd : d.length = n * n) (hj : j < n) (hp : gsl_matrix_get n d j j ≠ 0) :
    (LU_eliminate n d j).length = n * n ∧
    ∀ r c, r < n → c < n →
      gsl_matrix_get n (LU_eliminate n d j) r c
        = if j < r then
            (if c = j then gsl_matrix_get n d r j / gsl_matrix_get n d j j
             else if j < c then
               gsl_matrix_get n d r c
                 - gsl_matrix_get n d r j / gsl_matrix_get n d j j * gsl_matrix_get n d j c
             else gsl_matrix_get n d r c)
          else gsl_matrix_get n d r c := by
  unfold LU_eliminate
  simp only []
  rw [if_pos hp]
  have key := forLoop_induction (j + 1) n
    (fun i d' =>
      let aij := gsl_matrix_get n d' i j / gsl_matrix_get n d j j
      let d' := gsl_matrix_set n d' i j aij
      forLoop (j + 1) n
        (fun k d' =>
          let aik := gsl_matrix_get n d' i k
          let ajk := gsl_matrix_get n d' j k
          gsl_matrix_set n d' i k (aik - aij * ajk))
        d') d
    (fun m e => e.length = n * n ∧ ∀ r c, r < n → c < n →
      gsl_matrix_get n e r c
        = if j < r ∧ r < m then
            (if c = j then gsl_matrix_get n d r j / gsl_matrix_get n d j j
             else if j < c then
               gsl_matrix_get n d r c
                 - gsl_matrix_get n d r j / gsl_matrix_get n d j j * gsl_matrix_get n d j c
             else gsl_matrix_get n d r c)
          else gsl_matrix_get n d r c)
    (by omega)
    ⟨hd, fun r c _ _ => by
      have : ¬ (j < r ∧ r < j + 1) := by omega
      rw [if_neg this]⟩
    (by
      intro m e h1 h2 ⟨hl, he⟩
      have hmj : m ≠ j := by omega
      have hl1 : (gsl_matrix_set n e m j
          (gsl_matrix_get n e m j / gsl_matrix_get n d j j)).length = n * n := by
        simp [gsl_matrix_set_length, hl]
      obtain ⟨hl2, hg2⟩ := LU_eliminate_row_spec n
        (gsl_matrix_set n e m j (gsl_matrix_get n e m j / gsl_matrix_get n d j j)) m j
        (gsl_matrix_get n e m j / gsl_matrix_get n d j j) hl1 h2 hj hmj
      refine ⟨hl2, fun r c hr hc => ?_⟩
      simp only []
      rw [hg2 r c hc]
      have em : ∀ c', c' < n → gsl_matrix_get n e m c' = gsl_matrix_get n d m c' := by
        intro c' hc'
        have c0 : ¬ (j < m ∧ m < m) := by omega
        rw [he m c' h2 hc', if_neg c0]
      have ej : ∀ c', c' < n → gsl_matrix_get n e j c' = gsl_matrix_get n d j c' := by
        intro c' hc'
        have c0 : ¬ (j < j ∧ j < m) := by omega
        rw [he j c' hj hc', if_neg c0]
      by_cases hrm : r = m
      · subst hrm
        have c1 : j < r ∧ r < r + 1 := ⟨by omega, by omega⟩
        have hjr : j ≠ r := Ne.symm hmj
        simp only [gsl_matrix_get_set n e r j r c _ hl h2 hj hc,
          gsl_matrix_get_set n e r j j c _ hl h2 hj hc, em c hc, em j hj, ej c hc]
        by_cases hjc : j < c
        · have hcj : c ≠ j := by omega
          simp [hjc, hcj, c1, hjr]
        · by_cases hcj : c = j
          · subst hcj
            simp [c1]
          · simp [hjc, hcj, c1]
      · have c2 : ¬ (r = m ∧ j < c) := fun h => hrm h.1
        have c3 : ¬ (r = m ∧ c = j) := fun h => hrm h.1
        rw [if_neg c2, gsl_matrix_get_set n e m j r c _ hl h2 hj hc, if_neg c3, he r c hr hc]
        by_cases h3 : j < r ∧ r < m
        · have c4 : j < r ∧ r < m + 1 := ⟨h3.1, by omega⟩
          rw [if_pos h3, if_pos c4]
        · have c4 : ¬ (j < r ∧ r < m + 1) := by omega
          rw [if_neg h3, if_neg c4])
  refine ⟨key.1, fun r c hr hc => ?_⟩
  rw [key.2 r c hr hc]
  by_cases h : j < r
  · rw [if_pos h, if_pos (⟨h, hr⟩ : j < r ∧ r < n)]
  · have c5 : ¬ (j < r ∧ r < n) := fun h' => h h'.1
    rw [if_neg h, if_neg c5]

end LUFacts

section Inv

variable {K : Type} [LinearOrderedField K]

theorem LU_inv_swap (n : Nat) (A0 M M' : Nat → Nat → K) (p p' : Nat → Nat) (j r : Nat)
    (hj : j < n) (hjr : j ≤ r) (hr : r < n) (hinv : LU_inv n A0 j M p)
    (hM : ∀ i k, i < n → k < n →
      M' i k = if i = j then M r k else if i = r then M j k else M i k)
    (hp : ∀ i, i < n → p' i = if i = j then p r else if i = r then p j else p i) :
    LU_inv n A0 j M' p' := by
  intro i k hi hk
  have hup : ∀ t, t < j → upper M' t k = upper M t k := by
    intro t ht
    unfold upper
    have h1 : t ≠ j := by omega
    have h2 : t ≠ r := by omega
    rw [hM t k (by omega) hk, if_neg h1, if_neg h2]
  have hsum : ∀ i', i' < n → (∀ t, t < j → M' i t = M i' t) →
      (∑ t in Finset.range (min i j), M' i t * upper M' t k)
        = ∑ t in Finset.range (min i j), M i' t * upper M t k := by
    intro i' _ h
    apply Finset.sum_congr rfl
    intro t ht
    have ht' : t < j := lt_of_lt_of_le (Finset.mem_range.mp ht) (min_le_right i j)
    rw [h t ht', hup t ht']
  by_cases hij : i = j
  · subst hij
    have e := hinv r k hr hk
    rw [hp i hi, if_pos rfl, e, hsum r hr (fun t ht => by rw [hM i t hi (by omega), if_pos rfl])]
    have m1 : min r i = i := min_eq_right hjr
    have m2 : min i i = i := min_self i
    have c1 : ¬ r < i := by omega
    have c2 : ¬ i < i := by omega
    rw [m1, m2, if_neg c1, if_neg c2, hM i k hi hk, if_pos rfl]
  · by_cases hir : i = r
    · subst hir
      have e := hinv j k hj hk
      rw [hp i hi, if_neg hij, if_pos rfl, e,
        hsum j hj (fun t ht => by rw [hM i t hi (by omega), if_neg hij, if_pos rfl])]
      have m1 : min j j = j := min_self j
      have m2 : min i j = j := min_eq_right hjr
      have c1 : ¬ i < j := by omega
      have c2 : ¬ j < j := by omega
      rw [m1, m2, if_neg c1, if_neg c2, hM i k hi hk, if_neg hij, if_pos rfl]
    · have e := hinv i k hi hk
      rw [hp i hi, if_neg hij, if_neg hir, e,
        hsum i hi (fun t ht => by rw [hM i t hi (by omega), if_neg hij, if_neg hir])]
      congr 1
      unfold upper
      rw [hM i k hi hk, if_neg hij, if_neg hir]

theorem LU_inv_eliminate (n : Nat) (A0 M M' : Nat → Nat → K) (p : Nat → Nat) (l : Nat → K)
    (j : Nat) (hj : j < n) (hinv : LU_inv n A0 j M p)
    (hrow : ∀ r c, r ≤ j → c < n → M' r c = M r c)
    (hcol : ∀ r c, j < r → r < n → c < j → M' r c = M r c)
    (hl : ∀ r, j < r → r < n → M' r j = l r ∧ l r * M j j = M r j)
    (hupd : ∀ r c, j < r → r < n → j < c → c < n → M' r c = M r c - l r * M j c) :
    LU_inv n A0 (j + 1) M' p := by
  intro i k hi hk
  have hup : ∀ t, t ≤ j → upper M' t k = upper M t k := by
    intro t ht
    unfold upper
    rw [hrow t k ht hk]
  rw [hinv i k hi hk]
  by_cases hij : i ≤ j
  · have m1 : min i (j + 1) = i := min_eq_left (by omega)
    have m2 : min i j = i := min_eq_left hij
    have c1 : i < j + 1 := by omega
    rw [m1, m2, if_pos c1, hup i hij]
    congr 1
    · apply Finset.sum_congr rfl
      intro t ht
      have ht' : t < i := Finset.mem_range.mp ht
      rw [hrow i t hij (by omega), hup t (by omega)]
    · by_cases h : i < j
      · rw [if_pos h]
      · have : i = j := by omega
        subst this
        rw [if_neg h]
        rfl
  · have hji : j < i := by omega
    have m1 : min i (j + 1) = j + 1 := min_eq_right (by omega)
    have m2 : min i j = j := min_eq_right (by omega)
    have c1 : ¬ i < j + 1 := by omega
    have c2 : ¬ i < j := by omega
    rw [m1, m2, if_neg c1, if_neg c2, Finset.sum_range_succ, add_assoc]
    congr 1
    · apply Finset.sum_congr rfl
      intro t ht
      have ht' : t < j := Finset.mem_range.mp ht
      rw [hcol i t hji hi ht', hup t (by omega)]
    · obtain ⟨e1, e2⟩ := hl i hji hi
      rw [e1, hup j (le_refl j)]
      unfold upper
      by_cases hk1 : j < k
      · have c3 : j ≤ k := by omega
        have c4 : j + 1 ≤ k := by omega
        rw [if_pos c3, if_pos c3, if_pos c4, hupd i k hji hi hk1 hk]
        ring
      · by_cases hk2 : k = j
        · subst hk2
          have c4 : ¬ k + 1 ≤ k := by omega
          rw [if_pos (le_refl k), if_pos (le_refl k), if_neg c4, e2, add_zero]
        · have c3 : ¬ j ≤ k := by omega
          have c4 : ¬ j + 1 ≤ k := by omega
          rw [if_neg c3, if_neg c3, if_neg c4]
          ring

end Inv

section Decomp

variable {K : Type} [LinearOrderedField K]

theorem LU_step_good (n : Nat) (a : List K) (j : Nat) (s : LU K) (hj : j < n)
    (h : LU_good n a j s) : LU_good n a (j + 1) (LU_step n j s) := by
  obtain ⟨hA, hp, hsurj, hinv⟩ := h
  obtain ⟨hpl, hpu, hmax⟩ := LU_pivot_spec n s.A j hj
  obtain ⟨hsl, hsg⟩ := gsl_matrix_swap_rows_spec n s.A j (LU_pivot n s.A j) hA hj hpu
  obtain ⟨hql, hqg⟩ := gsl_permutation_swap_spec s.p j (LU_pivot n s.A j) (by omega) (by omega)
  -- the state after the row exchange
  have hs1 : ∃ s1 : LU K,
      LU_step n j s = ⟨LU_eliminate n s1.A j, s1.p, s1.signum⟩ ∧
      s1.A.length = n * n ∧ s1.p.length = n ∧
      (∀ r c, c < n → gsl_matrix_get n s1.A r c
        = if r = j then gsl_matrix_get n s.A (LU_pivot n s.A j) c
          else if r = LU_pivot n s.A j then gsl_matrix_get n s.A j c
          else gsl_matrix_get n s.A r c) ∧
      (∀ r, s1.p.getD r 0
        = if r = j then s.p.getD (LU_pivot n s.A j) 0
          else if r = LU_pivot n s.A j then s.p.getD j 0 else s.p.getD r 0) := by
    by_cases hne : LU_pivot n s.A j ≠ j
    · refine ⟨⟨gsl_matrix_swap_rows n s.A j (LU_pivot n s.A j),
        gsl_permutation_swap s.p j (LU_pivot n s.A j), -s.signum⟩, ?_, hsl, hql.trans hp, hsg, hqg⟩
      simp [LU_step, hne]
    · have he : LU_pivot n s.A j = j := not_not.mp hne
      refine ⟨s, ?_, hA, hp, ?_, ?_⟩
      · simp [LU_step, he]
      · intro r c _
        rw [he]
        by_cases hr : r = j <;> simp [hr]
      · intro r
        rw [he]
        by_cases hr : r = j <;> simp [hr]
  obtain ⟨s1, hstep, h1A, h1p, h1g, h1q⟩ := hs1
  have inv1 : LU_inv n (gsl_matrix_get n a) j (gsl_matrix_get n s1.A) (fun r => s1.p.getD r 0) :=
    LU_inv_swap n _ _ _ _ _ j (LU_pivot n s.A j) hj hpl hpu hinv
      (fun i k _ hk => h1g i k hk) (fun i _ => h1q i)
  have surj1 : ∀ v, v < n → ∃ r, r < n ∧ s1.p.getD r 0 = v := by
    intro v hv
    obtain ⟨r, hr, e⟩ := hsurj v hv
    by_cases h1 : r = j
    · refine ⟨LU_pivot n s.A j, hpu, ?_⟩
      rw [h1q]
      by_cases h2 : LU_pivot n s.A j = j
      · rw [if_pos h2, h2, ← h1, e]
      · rw [if_neg h2, if_pos rfl, ← h1, e]
    · by_cases h2 : r = LU_pivot n s.A j
      · refine ⟨j, hj, ?_⟩
        rw [h1q, if_pos rfl, ← h2, e]
      · exact ⟨r, hr, by rw [h1q, if_neg h1, if_neg h2, e]⟩
  have max1 : ∀ i, j ≤ i → i < n →
      |gsl_matrix_get n s1.A i j| ≤ |gsl_matrix_get n s1.A j j| := by
    intro i h1 h2
    rw [h1g i j hj, h1g j j hj, if_pos rfl]
    by_cases c1 : i = j
    · rw [if_pos c1]
    · rw [if_neg c1]
      by_cases c2 : i = LU_pivot n s.A j
      · rw [if_pos c2]
        exact hmax j (le_refl j) hj
      · rw [if_neg c2]
        exact hmax i h1 h2
  rw [hstep]
  by_cases hz : gsl_matrix_get n s1.A j j ≠ 0
  · obtain ⟨hel, heg⟩ := LU_eliminate_spec n s1.A j h1A hj hz
    refine ⟨hel, h1p, surj1, ?_⟩
    apply LU_inv_eliminate n _ (gsl_matrix_get n s1.A) _ _
      (fun r => gsl_matrix_get n s1.A r j / gsl_matrix_get n s1.A j j) j hj inv1
    · intro r c hr hc
      have c1 : ¬ j < r := by omega
      show gsl_matrix_get n (LU_eliminate n s1.A j) r c = _
      rw [heg r c (by omega) hc, if_neg c1]
    · intro r c h1 h2 h3
      have c1 : c ≠ j := by omega
      have c2 : ¬ j < c := by omega
      show gsl_matrix_get n (LU_eliminate n s1.A j) r c = _
      rw [heg r c h2 (by omega), if_pos h1, if_neg c1, if_neg c2]
    · intro r h1 h2
      constructor
      · show gsl_matrix_get n (LU_eliminate n s1.A j) r j = _
        rw [heg r j h2 hj, if_pos h1, if_pos rfl]
      · exact div_mul_cancel₀ _ hz
    · intro r c h1 h2 h3 h4
      have c1 : c ≠ j := by omega
      show gsl_matrix_get n (LU_eliminate n s1.A j) r c = _
      rw [heg r c h2 h4, if_pos h1, if_neg c1, if_pos h3]
  · have hz0 : gsl_matrix_get n s1.A j j = 0 := not_not.mp hz
    have hcol0 : ∀ r, j < r → r < n → gsl_matrix_get n s1.A r j = 0 := by
      intro r h1 h2
      have := max1 r (by omega) h2
      rw [hz0, abs_zero] at this
      exact abs_eq_zero.mp (le_antisymm this (abs_nonneg _))
    have hsame : LU_eliminate n s1.A j = s1.A := by
      unfold LU_eliminate
      simp [hz0]
    refine ⟨by rw [hsame]; exact h1A, h1p, surj1, ?_⟩
    show LU_inv n _ (j + 1) (gsl_matrix_get n (LU_eliminate n s1.A j)) _
    rw [hsame]
    apply LU_inv_eliminate n _ (gsl_matrix_get n s1.A) _ _ (fun _ => 0) j hj inv1
    · intro r c _ _
      rfl
    · intro r c _ _ _
      rfl
    · intro r h1 h2
      exact ⟨hcol0 r h1 h2, by rw [zero_mul, hcol0 r h1 h2]⟩
    · intro r c _ _ _ _
      simp

/-- The packed factors: with `M` the block left by the decomposition and `p` its
permutation, row `p[i]` of the original is row `i` of `L * U`. -/
theorem gsl_linalg_LU_decomp_spec (n : Nat) (a : List K) (hn : 1 ≤ n) (ha : a.length = n * n) :
    (gsl_linalg_LU_decomp n a).A.length = n * n ∧
    (gsl_linalg_LU_decomp n a).p.length = n ∧
    (∀ v, v < n → ∃ r, r < n ∧ (gsl_linalg_LU_decomp n a).p.getD r 0 = v) ∧
    ∀ i k, i < n → k < n →
      gsl_matrix_get n a ((gsl_linalg_LU_decomp n a).p.getD i 0) k
        = (∑ t in Finset.range i,
            gsl_matrix_get n (gsl_linalg_LU_decomp n a).A i t
              * upper (gsl_matrix_get n (gsl_linalg_LU_decomp n a).A) t k)
          + upper (gsl_matrix_get n (gsl_linalg_LU_decomp n a).A) i k := by
  have key := forLoop_induction 0 (n - 1) (LU_step n) (⟨a, List.range n, 1⟩ : LU K)
    (fun m s => LU_good n a m s) (Nat.zero_le _)
    (by
      refine ⟨ha, by simp, fun v hv => ⟨v, hv, by simp [List.getD_eq_getElem?_getD, hv]⟩, ?_⟩
      intro i k hi hk
      simp [List.getD_eq_getElem?_getD, hi])
    (by
      intro m t _ hm h
      exact LU_step_good n a m t (by omega) h)
  obtain ⟨h1, h2, h3, h4⟩ := key
  refine ⟨h1, h2, h3, fun i k hi hk => ?_⟩
  have e := h4 i k hi hk
  have m1 : min i (n - 1) = i := min_eq_left (by omega)
  rw [m1] at e
  rw [show gsl_linalg_LU_decomp n a = forLoop 0 (n - 1) (LU_step n) ⟨a, List.range n, 1⟩ from rfl]
  rw [e]
  congr 1
  by_cases c : i < n - 1
  · rw [if_pos c]
  · have : i = n - 1 := by omega
    rw [if_neg c]
    unfold upper
    rw [this]

end Decomp

/-! ## Substitution and the solved system -/

section Substitution

variable {K : Type} [LinearOrderedField K]

/-- A value decremented term by term is the value minus the finite sum. -/
theorem forLoop_sub_sum (lo hi : Nat) (f : Nat → K) (s : K) :
    forLoop lo hi (fun j tmp => tmp - f j) s = s - ∑ j in Finset.Ico lo hi, f j := by
  induction hi with
  | zero => simp [forLoop]
  | succ m ih =>
    by_cases h : lo ≤ m
    · rw [forLoop_succ _ _ _ _ h, ih, Finset.sum_Ico_succ_top h]
      ring
    · rw [forLoop_empty _ _ _ _ (by omega), Finset.Ico_eq_empty (by omega)]
      simp

theorem singular_eq_false (n : Nat) (LU : List K)
    (hdiag : ∀ i, i < n → gsl_matrix_get n LU i i ≠ 0) : singular n LU = false := by
  unfold singular
  rw [List.any_eq_false]
  intro i hi
  simpa using hdiag i (List.mem_range.mp hi)

/-- Forward substitution with the unit lower triangle: `c[i] + Σ_{t<i} L[i][t]*c[t] = x[i]`. -/
theorem trsv_lower_unit_spec (n : Nat) (LU x : List K) (hx : x.length = n) :
    (trsv_lower_unit n LU x).length = n ∧
    ∀ i, i < n →
      (trsv_lower_unit n LU x).getD i 0
        + ∑ t in Finset.range i, gsl_matrix_get n LU i t * (trsv_lower_unit n LU x).getD t 0
        = x.getD i 0 := by
  unfold trsv_lower_unit
  have key := forLoop_induction 0 n
    (fun i x =>
      let tmp := forLoop 0 i (fun j tmp => tmp - gsl_matrix_get n LU i j * x.getD j 0) (x.getD i 0)
      x.set i tmp) x
    (fun m e => e.length = n ∧
      (∀ i, i < m →
        e.getD i 0 + ∑ t in Finset.range i, gsl_matrix_get n LU i t * e.getD t 0 = x.getD i 0) ∧
      ∀ i, m ≤ i → e.getD i 0 = x.getD i 0)
    (Nat.zero_le n) ⟨hx, fun i hi => absurd hi (Nat.not_lt_zero i), fun _ _ => rfl⟩
    (by
      intro m e _ hm ⟨hl, h1, h2⟩
      simp only []
      rw [forLoop_sub_sum]
      refine ⟨by simp [hl], fun i hi => ?_, fun i hi => ?_⟩
      · have hsum : ∀ i', i' ≤ m →
            (∑ t in Finset.range i', gsl_matrix_get n LU i' t *
              (e.set m (e.getD m 0 - ∑ j in Finset.Ico 0 m,
                gsl_matrix_get n LU m j * e.getD j 0)).getD t 0)
            = ∑ t in Finset.range i', gsl_matrix_get n LU i' t * e.getD t 0 := by
          intro i' hi'
          apply Finset.sum_congr rfl
          intro t ht
          have : m ≠ t := by
            have := Finset.mem_range.mp ht
            omega
          rw [getD_set_ne _ _ _ _ _ this]
        rw [hsum i (by omega)]
        by_cases him : i = m
        · subst him
          rw [getD_set_eq _ _ _ _ (by omega), h2 i (le_refl i), Finset.range_eq_Ico]
          ring
        · rw [getD_set_ne _ _ _ _ _ (Ne.symm him)]
          exact h1 i (by omega)
      · have : m ≠ i := by omega
        rw [getD_set_ne _ _ _ _ _ this]
        exact h2 i (by omega))
  exact ⟨key.1, key.2.1⟩

/-- Back substitution with the upper triangle:
`U[i][i]*x[i] + Σ_{i<k<n} U[i][k]*x[k] = c[i]`. -/
theorem trsv_upper_nonunit_spec (n : Nat) (LU c : List K) (hc : c.length = n)
    (hdiag : ∀ i, i < n → gsl_matrix_get n LU i i ≠ 0) :
    (trsv_upper_nonunit n LU c).length = n ∧
    ∀ i, i < n →
      gsl_matrix_get n LU i i * (trsv_upper_nonunit n LU c).getD i 0
        + ∑ k in Finset.Ico (i + 1) n,
            gsl_matrix_get n LU i k * (trsv_upper_nonunit n LU c).getD k 0
        = c.getD i 0 := by
  unfold trsv_upper_nonunit
  have key := forLoop_induction 0 n
    (fun t x =>
      let i := n - 1 - t
      let tmp := forLoop (i + 1) n (fun j tmp => tmp - gsl_matrix_get n LU i j * x.getD j 0)
        (x.getD i 0)
      x.set i (tmp / gsl_matrix_get n LU i i)) c
    (fun m e => e.length = n ∧
      (∀ i, n - m ≤ i → i < n →
        gsl_matrix_get n LU i i * e.getD i 0
          + ∑ k in Finset.Ico (i + 1) n, gsl_matrix_get n LU i k * e.getD k 0 = c.getD i 0) ∧
      ∀ i, i < n - m → e.getD i 0 = c.getD i 0)
    (Nat.zero_le n) ⟨hc, fun i h1 h2 => by omega, fun _ _ => rfl⟩
    (by
      intro m e _ hm ⟨hl, h1, h2⟩
      simp only []
      rw [forLoop_sub_sum]
      have hi0 : n - 1 - m < n := by omega
      refine ⟨by simp [hl], fun i hi hin => ?_, fun i hi => ?_⟩
      · have hsum : ∀ i', n - 1 - m ≤ i' →
            (∑ k in Finset.Ico (i' + 1) n, gsl_matrix_get n LU i' k *
              (e.set (n - 1 - m) ((e.getD (n - 1 - m) 0 - ∑ j in Finset.Ico (n - 1 - m + 1) n,
                gsl_matrix_get n LU (n - 1 - m) j * e.getD j 0)
                  / gsl_matrix_get n LU (n - 1 - m) (n - 1 - m))).getD k 0)
            = ∑ k in Finset.Ico (i' + 1) n, gsl_matrix_get n LU i' k * e.getD k 0 := by
          intro i' hi'
          apply Finset.sum_congr rfl
          intro k hk
          have : n - 1 - m ≠ k := by
            have := (Finset.mem_Ico.mp hk).1
            omega
          rw [getD_set_ne _ _ _ _ _ this]
        rw [hsum i (by omega)]
        by_cases him : i = n - 1 - m
        · subst him
          rw [getD_set_eq _ _ _ _ (by omega), mul_div_cancel₀ _ (hdiag _ hi0),
            h2 _ (by omega)]
          ring
        · rw [getD_set_ne _ _ _ _ _ (Ne.symm him)]
          exact h1 i (by omega) hin
      · have : n - 1 - m ≠ i := by omega
        rw [getD_set_ne _ _ _ _ _ this]
        exact h2 i (by omega))
  refine ⟨key.1, fun i hi => key.2.1 i (by omega) hi⟩

/-- With a non-zero diagonal `gsl_linalg_LU_solve` returns a vector `y` of length `n` with
`L (U y) = P b`, written through the intermediate vector `c = U y`. -/
theorem gsl_linalg_LU_solve_spec (n : Nat) (LU : List K) (p : List Nat) (b x : List K)
    (hp : p.length = n) (hb : b.length = n) (hx : x.length = n)
    (hdiag : ∀ i, i < n → gsl_matrix_get n LU i i ≠ 0) :
    ∃ y c : List K, gsl_linalg_LU_solve n LU p b x = some y ∧ y.length = n ∧
      (∀ i, i < n →
        c.getD i 0 + ∑ t in Finset.range i, gsl_matrix_get n LU i t * c.getD t 0
          = b.getD (p.getD i 0) 0) ∧
      (∀ i, i < n →
        gsl_matrix_get n LU i i * y.getD i 0
          + ∑ k in Finset.Ico (i + 1) n, gsl_matrix_get n LU i k * y.getD k 0 = c.getD i 0) := by
  unfold gsl_linalg_LU_solve
  rw [singular_eq_false n LU hdiag]
  simp only [Bool.false_eq_true, if_false]
  obtain ⟨l1, g1⟩ := forLoop_set (fun i => b.getD i 0) x (0 : K) n (by omega)
  have l2g2 := forLoop_set
    (fun i => (forLoop 0 n (fun i v => v.set i (b.getD i 0)) x).getD (p.getD i 0) 0)
    (forLoop 0 n (fun i v => v.set i (b.getD i 0)) x) (0 : K) n (by omega)
  obtain ⟨l2, g2⟩ := l2g2
  have hperm : gsl_permute_vector p (forLoop 0 n (fun i v => v.set i (b.getD i 0)) x)
      = forLoop 0 n (fun i v => v.set i
          ((forLoop 0 n (fun i v => v.set i (b.getD i 0)) x).getD (p.getD i 0) 0))
        (forLoop 0 n (fun i v => v.set i (b.getD i 0)) x) := by
    unfold gsl_permute_vector
    rw [hp]
  have hpv : ∀ i, i < n →
      (gsl_permute_vector p (forLoop 0 n (fun i v => v.set i (b.getD i 0)) x)).getD i 0
        = b.getD (p.getD i 0) 0 := by
    intro i hi
    rw [hperm, g2 i, if_pos hi]
    show (forLoop 0 n (fun i v => v.set i (b.getD i 0)) x).getD (p.getD i 0) 0 = _
    rw [g1]
    by_cases h : p.getD i 0 < n
    · rw [if_pos h]
    · rw [if_neg h, List.getD_eq_default _ _ (by omega), List.getD_eq_default _ _ (by omega)]
  have hpl : (gsl_permute_vector p (forLoop 0 n (fun i v => v.set i (b.getD i 0)) x)).length
      = n := by
    rw [hperm, l2, l1, hx]
  obtain ⟨l3, g3⟩ := trsv_lower_unit_spec n LU
    (gsl_permute_vector p (forLoop 0 n (fun i v => v.set i (b.getD i 0)) x)) hpl
  obtain ⟨l4, g4⟩ := trsv_upper_nonunit_spec n LU
    (trsv_lower_unit n LU
      (gsl_permute_vector p (forLoop 0 n (fun i v => v.set i (b.getD i 0)) x))) l3 hdiag
  refine ⟨_, _, rfl, l4, fun i hi => ?_, g4⟩
  rw [g3 i hi, hpv i hi]

end Substitution

section Combine

variable {K : Type} [LinearOrderedField K]

end Combine

/-! ## The product computed by multiply, and uniqueness of the solution -/

section MoreMultiply

variable {K : Type} [CommRing K]

/-- What `multiply` does with a matrix and a vector (for `n <= 1` through the
element-wise branch, which gives the same product). -/
theorem multiply_apply (n : Nat) (a b x : List K) (hn : n < 65536)
    (ha : a.length = n * n) (hb : b.length = n) (hx : x.length = n) :
    (multiply n a b x).error = none ∧ (multiply n a b x).state.length = n ∧
    ∀ i, i < n → (multiply n a b x).state.getD i 0 = row_major_apply n a b i := by
  by_cases h2 : 2 ≤ n
  · rw [multiply_of_matrix_vector n a b x hn h2 ha hb hx]
    obtain ⟨hl, hg⟩ := forLoop_set (fun i => matrix_vector_sum n a b i) x (0 : K) n (by omega)
    refine ⟨rfl, by simpa [hx] using hl, fun i hi => ?_⟩
    show (forLoop 0 n (fun i v => v.set i (matrix_vector_sum n a b i)) x).getD i 0 = _
    rw [hg i, if_pos hi, matrix_vector_sum_eq n a b i hn hi]
  · have ha1 : a.length = n := by
      have : n = 0 ∨ n = 1 := by omega
      rcases this with h | h <;> simp [ha, h]
    rw [multiply_of_vector_vector n a b x ha1 hb hx]
    obtain ⟨hl, hg⟩ := forLoop_set (fun i => a.getD i 0 * b.getD i 0) x (0 : K) n (by omega)
    refine ⟨rfl, by simpa [hx] using hl, fun i hi => ?_⟩
    show (forLoop 0 n (fun i v => v.set i (a.getD i 0 * b.getD i 0)) x).getD i 0 = _
    rw [hg i, if_pos hi]
    have h0 : n = 1 := by omega
    have hi0 : i = 0 := by omega
    subst h0 hi0
    simp [row_major_apply, List.range_succ]

end MoreMultiply

section Unique

variable {K : Type} [LinearOrderedField K]

end Unique

section Transposed

variable {K : Type} [CommRing K]

theorem column_index_inj (n i j i' j' : Nat) (hi : i < n) (hi' : i' < n)
    (h : i + n * j = i' + n * j') : i = i' ∧ j = j' := by
  have h' : j * n + i = j' * n + i' := by
    rw [Nat.mul_comm j n, Nat.mul_comm j' n]
    omega
  have hn : 0 < n := by omega
  have h1 : (j * n + i) / n = j := by
    rw [Nat.mul_comm, Nat.mul_add_div hn, Nat.div_eq_of_lt hi, Nat.add_zero]
  have h2 : (j' * n + i') / n = j' := by
    rw [Nat.mul_comm, Nat.mul_add_div hn, Nat.div_eq_of_lt hi', Nat.add_zero]
  have hj : j = j' := by rw [← h1, h', h2]
  subst hj
  exact ⟨by omega, rfl⟩

theorem column_index_lt (n i j : Nat) (hi : i < n) (hj : j < n) : i + n * j < n * n := by
  have : n * (j + 1) ≤ n * n := Nat.mul_le_mul_left n hj
  have e : n * (j + 1) = n * j + n := by ring
  omega

/-- What `multiply` does with two matrices: it returns normally and the sum for the pair
`i`, `j`, which is the row-major product entry of row `i` and column `j`, is stored at
position `i + n*j`, the row-major position of row `j` and column `i`. -/
theorem multiply_matrix_matrix_transposed (n : Nat) (a b x : List K) (h2 : 2 ≤ n)
    (hn : n < 65536) (ha : a.length = n * n) (hb : b.length = n * n) (hx : x.length = n * n) :
    (multiply n a b x).error = none ∧ (multiply n a b x).state.length = n * n ∧
    ∀ i j, i < n → j < n →
      (multiply n a b x).state.getD (i + n * j) 0 = row_major_product n a b i j := by
  have hne : n * n ≠ n := by
    intro h
    have : n * 2 ≤ n * n := Nat.mul_le_mul_left n h2
    omega
  have hm : multiply n a b x
      = ⟨forLoop 0 n (fun i x => forLoop 0 n (fun j x =>
          let sum := matrix_matrix_sum n a b i j
          x.set (uadd i (umul n j)) sum) x) x, none⟩ := by
    simp [multiply, multiply_matrix_matrix, Check, ha, hb, hx, umul_small n n hn (le_refl n), hne]
  rw [hm]
  have inner : ∀ i, i < n → ∀ d : List K, d.length = n * n →
      (forLoop 0 n (fun j x =>
          let sum := matrix_matrix_sum n a b i j
          x.set (uadd i (umul n j)) sum) d).length = n * n ∧
      ∀ i' j', i' < n → j' < n →
        (forLoop 0 n (fun j x =>
          let sum := matrix_matrix_sum n a b i j
          x.set (uadd i (umul n j)) sum) d).getD (i' + n * j') 0
          = if i' = i then matrix_matrix_sum n a b i j' else d.getD (i' + n * j') 0 := by
    intro i hi d hd
    have key := forLoop_induction 0 n (fun j x =>
        let sum := matrix_matrix_sum n a b i j
        x.set (uadd i (umul n j)) sum) d
      (fun m e => e.length = n * n ∧ ∀ i' j', i' < n → j' < n →
        e.getD (i' + n * j') 0
          = if i' = i ∧ j' < m then matrix_matrix_sum n a b i j' else d.getD (i' + n * j') 0)
      (Nat.zero_le n)
      ⟨hd, fun i' j' _ _ => by
        have c : ¬ (i' = i ∧ j' < 0) := by omega
        rw [if_neg c]⟩
      (by
        intro m e _ hm' ⟨hl, he⟩
        refine ⟨by simp [hl], fun i' j' hi' hj' => ?_⟩
        simp only []
        rw [uadd_umul_small n m i hn hm' hi]
        by_cases hc : i + n * m = i' + n * j'
        · obtain ⟨e1, e2⟩ := column_index_inj n i m i' j' hi hi' hc
          subst e1 e2
          have c : i = i ∧ m < m + 1 := ⟨rfl, Nat.lt_succ_self m⟩
          rw [getD_set_eq _ _ _ _ (by rw [hl]; exact column_index_lt n i m hi hm'), if_pos c]
        · rw [getD_set_ne _ _ _ _ _ hc, he i' j' hi' hj']
          by_cases c1 : i' = i ∧ j' < m
          · have c2 : i' = i ∧ j' < m + 1 := ⟨c1.1, by omega⟩
            rw [if_pos c1, if_pos c2]
          · have c2 : ¬ (i' = i ∧ j' < m + 1) := by
              rintro ⟨e1, e2⟩
              have : j' = m := by
                by_contra hjm
                exact c1 ⟨e1, by omega⟩
              subst e1 this
              exact hc rfl
            rw [if_neg c1, if_neg c2])
    refine ⟨key.1, fun i' j' hi' hj' => ?_⟩
    rw [key.2 i' j' hi' hj']
    by_cases c : i' = i
    · rw [if_pos c, if_pos ⟨c, hj'⟩]
    · have c2 : ¬ (i' = i ∧ j' < n) := fun h => c h.1
      rw [if_neg c, if_neg c2]
  have outer := forLoop_induction 0 n (fun i x => forLoop 0 n (fun j x =>
        let sum := matrix_matrix_sum n a b i j
        x.set (uadd i (umul n j)) sum) x) x
    (fun m e => e.length = n * n ∧ ∀ i' j', i' < n → j' < n →
      e.getD (i' + n * j') 0
        = if i' < m then matrix_matrix_sum n a b i' j' else x.getD (i' + n * j') 0)
    (Nat.zero_le n)
    ⟨hx, fun i' j' _ _ => by
      have c : ¬ i' < 0 := by omega
      rw [if_neg c]⟩
    (by
      intro m e _ hm' ⟨hl, he⟩
      obtain ⟨il, ig⟩ := inner m hm' e hl
      refine ⟨il, fun i' j' hi' hj' => ?_⟩
      rw [ig i' j' hi' hj']
      by_cases c : i' = m
      · subst c
        rw [if_pos rfl, if_pos (Nat.lt_succ_self i')]
      · rw [if_neg c, he i' j' hi' hj']
        by_cases c1 : i' < m
        · rw [if_pos c1, if_pos (Nat.lt_succ_of_lt c1)]
        · have c2 : ¬ i' < m + 1 := by omega
          rw [if_neg c1, if_neg c2])
  refine ⟨rfl, outer.1, fun i j hi hj => ?_⟩
  show (forLoop 0 n (fun i x => forLoop 0 n (fun j x =>
        let sum := matrix_matrix_sum n a b i j
        x.set (uadd i (umul n j)) sum) x) x).getD (i + n * j) 0 = _
  rw [outer.2 i j hi hj, if_pos hi, matrix_matrix_sum_eq n a b i j hn hi hj]

end Transposed

/-! ## Claims on the arithmetic primitives -/

section ArithmeticClaims

variable {K : Type} [CommRing K]

/-- C1 (evaluation at the failing input): for `n = 2`, `a = [1,2,3,4]` and `b` the identity
`[1,0,0,1]`, `multiply` returns normally with `x = [1,3,2,4]`, the transpose of the product:
`x[1 + 2*0]` is `3` where the row-major product entry of row `0`, column `1` is `2`. -/
theorem C1_multiply_matrix_matrix_stores_transposed :
    multiply 2 [1, 2, 3, 4] [1, 0, 0, 1] [0, 0, 0, 0] = ⟨[(1 : ℤ), 3, 2, 4], none⟩ ∧
    (multiply 2 [1, 2, 3, 4] [1, 0, 0, 1] [(0 : ℤ), 0, 0, 0]).state.getD (1 + 2 * 0) 0 = 3 ∧
    row_major_product 2 [1, 2, 3, 4] [1, 0, 0, 1] 0 1 = (2 : ℤ) := by
  decide

/-- C2 (counterexample): for `n = 65536` with `a` of length `n*n`, `b` and `x` of length `n`,
the `unsigned` product `size()*size()` wraps to `0` and `multiply` fails its "A size" check. -/
theorem C2_multiply_rejects_wrapped_size :
    multiply 65536 (List.replicate (65536 * 65536) (0 : ℤ)) (List.replicate 65536 0)
        (List.replicate 65536 0)
      = ⟨List.replicate 65536 0, some "A size"⟩ :=
  multiply_wrapped_A _ _ _ (List.length_replicate _ _)

/-- C2 (amended): for every `n < 65536` and buffers `a` of length `n*n`, `b` and `x` of length
`n`, `multiply` returns normally and leaves in `x` a buffer of length `n` with
`x[i] = Σ_{k<n} a[k + n*i] * b[k]`, accumulated left to right from `0`, for every `i < n`;
for `n = 2`, `a = [1,2,3,4]`, `b = [5,6]` the result is `[17, 39]`. -/
theorem C2_multiply_matrix_vector (n : Nat) (a b x : List K) (hn : n < 65536)
    (ha : a.length = n * n) (hb : b.length = n) (hx : x.length = n) :
    (multiply n a b x).error = none ∧ (multiply n a b x).state.length = n ∧
    (∀ i, i < n → (multiply n a b x).state.getD i 0 = row_major_apply n a b i) ∧
    (n = 2 → a = [1, 2, 3, 4] → b = [5, 6] → (multiply n a b x).state = [17, 39]) := by
  have key := multiply_apply n a b x hn ha hb hx
  refine ⟨key.1, key.2.1, key.2.2, ?_⟩
  intro h2 ha' hb'
  subst h2 ha' hb'
  apply list_ext_getD _ _ (0 : K) (by simpa using key.2.1)
  intro i hi
  rw [key.2.1] at hi
  rw [key.2.2 i hi]
  have : i = 0 ∨ i = 1 := by omega
  rcases this with h | h <;> subst h <;> norm_num [row_major_apply, List.range_succ]

/-- C2 (witness): the amended statement at `n = 2`, `a = [1,2,3,4]`, `b = [5,6]`. -/
theorem C2_multiply_matrix_vector_witness :
    (multiply 2 [1, 2, 3, 4] [5, 6] [(0 : ℤ), 0]).error = none ∧
    (multiply 2 [1, 2, 3, 4] [5, 6] [(0 : ℤ), 0]).state = [17, 39] :=
  let h := C2_multiply_matrix_vector 2 [1, 2, 3, 4] [5, 6] [(0 : ℤ), 0] (by decide) (by decide)
    (by decide) (by decide)
  ⟨h.1, h.2.2.2 rfl rfl rfl⟩

/-- C7 (counterexample): for `n = 65536`, `a` of length `n` and `b` of length `n*n`, the
`unsigned` product wraps to `0`, `b` is neither a vector nor a matrix for `multiply`, and the
failure is the "B size" check, not the unsupported-shape failure "failed to multiply". -/
theorem C7_wrapped_size_fails_B_size :
    multiply 65536 (List.replicate 65536 (0 : ℤ)) (List.replicate (65536 * 65536) 0) [7]
      = ⟨[7], some "B size"⟩ ∧
    (multiply 65536 (List.replicate 65536 (0 : ℤ)) (List.replicate (65536 * 65536) 0) [7]).error
      ≠ some "failed to multiply" := by
  have h := multiply_wrapped_B (List.replicate 65536 (0 : ℤ)) (List.replicate (65536 * 65536) 0)
    [7] (List.length_replicate _ _) (List.length_replicate _ _)
  refine ⟨h, ?_⟩
  rw [h]
  decide

/-- C7 (amended): for every `n` with `2 <= n < 65536`, every `a` of length `n`, every `b` of
length `n*n` and every output buffer `x`, `multiply` fails with "failed to multiply" and `x`
is unchanged; and for every `n` and all buffers, whenever `multiply` fails a check the
buffer `x` is what it was before the call. -/
theorem C7_multiply_failure_writes_nothing (n : Nat) (a b x : List K) :
    (2 ≤ n → n < 65536 → a.length = n → b.length = n * n →
      multiply n a b x = ⟨x, some "failed to multiply"⟩) ∧
    ((multiply n a b x).error ≠ none → (multiply n a b x).state = x) := by
  constructor
  · intro h2 hn ha hb
    have hne : n * n ≠ n := by
      intro h
      have : n * 2 ≤ n * n := Nat.mul_le_mul_left n h2
      omega
    simp [multiply, Check, ha, hb, umul_small n n hn (le_refl n), hne, Ne.symm hne]
  · exact multiply_frame n a b x

/-- C7 (witness): `n = 2`, `a = [1,2]`, `b = [1,0,0,1]`, `x = [7,8,9]`. -/
theorem C7_multiply_failure_writes_nothing_witness :
    multiply 2 [1, 2] [1, 0, 0, 1] [(7 : ℤ), 8, 9] = ⟨[7, 8, 9], some "failed to multiply"⟩ ∧
    (multiply 2 [1, 2] [1, 0, 0, 1] [(7 : ℤ), 8, 9]).state = [7, 8, 9] :=
  let h := C7_multiply_failure_writes_nothing 2 [1, 2] [1, 0, 0, 1] [(7 : ℤ), 8, 9]
  ⟨h.1 (by decide) (by decide) (by decide) (by decide), h.2 (by decide)⟩

/-- C9: for problem size `3` and all 3-vectors `a`, `b` (and any output buffer of length 3),
`cross (a, b, c)` returns normally with the standard 3-D cross product in `c`; `dot` of any
two 3-vectors `u`, `v` returns normally with the left-to-right sum
`((0 + u0*v0) + u1*v1) + u2*v2`; and `dot (c, a, s)` returns normally with `s = 0`: the
cross product is orthogonal to its first operand in exact arithmetic. -/
theorem C9_cross_orthogonal_to_first_operand (a b x : List K) (s : K)
    (ha : a.length = 3) (hb : b.length = 3) (hx : x.length = 3) :
    (cross 3 a b x).error = none ∧
    (cross 3 a b x).state
      = [a.getD 1 0 * b.getD 2 0 - a.getD 2 0 * b.getD 1 0,
         a.getD 2 0 * b.getD 0 0 - a.getD 0 0 * b.getD 2 0,
         a.getD 0 0 * b.getD 1 0 - a.getD 1 0 * b.getD 0 0] ∧
    (∀ u v : List K, u.length = 3 → v.length = 3 →
      dot 3 u v s
        = ⟨((0 + u.getD 0 0 * v.getD 0 0) + u.getD 1 0 * v.getD 1 0) + u.getD 2 0 * v.getD 2 0,
            none⟩) ∧
    dot 3 (cross 3 a b x).state a s
      = ⟨((0 + (cross 3 a b x).state.getD 0 0 * a.getD 0 0)
            + (cross 3 a b x).state.getD 1 0 * a.getD 1 0)
            + (cross 3 a b x).state.getD 2 0 * a.getD 2 0, none⟩ ∧
    dot 3 (cross 3 a b x).state a s = ⟨0, none⟩ := by
  have hdot : ∀ u v : List K, u.length = 3 → v.length = 3 →
      dot 3 u v s
        = ⟨((0 + u.getD 0 0 * v.getD 0 0) + u.getD 1 0 * v.getD 1 0) + u.getD 2 0 * v.getD 2 0,
            none⟩ := by
    intro u v hu hv
    have r3 : List.range' 0 3 = [0, 1, 2] := rfl
    simp [dot, Check, forLoop, hu, hv, r3]
  obtain ⟨a0, a1, a2, rfl⟩ : ∃ a0 a1 a2, a = [a0, a1, a2] := by
    match a, ha with
    | [a0, a1, a2], _ => exact ⟨a0, a1, a2, rfl⟩
  obtain ⟨b0, b1, b2, rfl⟩ : ∃ b0 b1 b2, b = [b0, b1, b2] := by
    match b, hb with
    | [b0, b1, b2], _ => exact ⟨b0, b1, b2, rfl⟩
  obtain ⟨x0, x1, x2, rfl⟩ : ∃ x0 x1 x2, x = [x0, x1, x2] := by
    match x, hx with
    | [x0, x1, x2], _ => exact ⟨x0, x1, x2, rfl⟩
  have hc : (cross 3 [a0, a1, a2] [b0, b1, b2] [x0, x1, x2]).state
      = [a1 * b2 - a2 * b1, a2 * b0 - a0 * b2, a0 * b1 - a1 * b0] := by
    simp [cross, Check]
  have hcl : (cross 3 [a0, a1, a2] [b0, b1, b2] [x0, x1, x2]).state.length = 3 := by
    rw [hc]
    rfl
  have hal : [a0, a1, a2].length = 3 := rfl
  refine ⟨by simp [cross, Check], by simpa using hc, hdot, hdot _ _ hcl hal, ?_⟩
  rw [hdot _ _ hcl hal, hc]
  simp
  ring

/-- C9 (witness): `a = [1,2,3]`, `b = [4,5,6]`: the cross product is `[-3,6,-3]`, the dot
product of `a` and `b` is `32`, and the dot product of the cross product with `a` is `0`. -/
theorem C9_cross_orthogonal_witness :
    (cross 3 [1, 2, 3] [4, 5, 6] [(0 : ℤ), 0, 0]).error = none ∧
    (cross 3 [1, 2, 3] [4, 5, 6] [(0 : ℤ), 0, 0]).state = [-3, 6, -3] ∧
    dot 3 [1, 2, 3] [4, 5, 6] (5 : ℤ) = ⟨32, none⟩ ∧
    dot 3 (cross 3 [1, 2, 3] [4, 5, 6] [(0 : ℤ), 0, 0]).state [1, 2, 3] 5 = ⟨0, none⟩ :=
  let h := C9_cross_orthogonal_to_first_operand [1, 2, 3] [4, 5, 6] [(0 : ℤ), 0, 0] 5
    (by decide) (by decide) (by decide)
  ⟨h.1, h.2.1, h.2.2.1 [1, 2, 3] [4, 5, 6] rfl rfl, h.2.2.2.2⟩

end ArithmeticClaims

/-! ## Claims on the solve dispatcher -/

section DispatchClaims

variable {K : Type} [LinearOrderedField K]

theorem solve_wrapped_A (epetra_solve : Solver K) (a b x : List K)
    (ha : a.length = 65536 * 65536) :
    solve epetra_solve 65536 a b x = ⟨⟨a, b, x⟩, some "A size"⟩ := by
  simp [solve, Check, umul, UINT_MOD, ha]

theorem solve_wrapped_empty (epetra_solve : Solver K) (b x : List K)
    (hb : b.length = 65536) (hx : x.length = 65536) :
    solve epetra_solve 65536 [] b x = epetra_solve 65536 [] b x := by
  simp [solve, Check, umul, UINT_MOD, hb, hx]

/-- C4 (counterexample): for `n = 65536` and correctly sized buffers (`a` of length `n*n`,
`b` and `x` of length `n`) the `unsigned` product `size()*size()` wraps to `0`, `solve`
fails its "A size" check and the Direct-Large-Dense adapter is not invoked. -/
theorem C4_solve_rejects_wrapped_size :
    solve epetra_probe 65536 (List.replicate (65536 * 65536) (0 : ℚ)) (List.replicate 65536 0)
        (List.replicate 65536 0)
      = ⟨⟨List.replicate (65536 * 65536) 0, List.replicate 65536 0, List.replicate 65536 0⟩,
          some "A size"⟩ :=
  solve_wrapped_A _ _ _ _ (List.length_replicate _ _)

/-- C4 (amended): for every `n < 65536` (so that `n*n` does not wrap in `unsigned`) and
correctly sized buffers, `solve` runs the strategy chosen by the size alone with threshold
`300`: it is `gsl_solve` when `n < 300` and the Direct-Large-Dense adapter when `n >= 300`,
whatever that adapter is; `299` selects Direct-Small, `300` selects Direct-Large-Dense, and
the sparse and iterative strategies are never selected. -/
theorem C4_solve_dispatch (epetra_solve amesos_solve aztec_solve : Solver K) (n : Nat)
    (a b x : List K) (hn : n < 65536) (ha : a.length = n * n) (hb : b.length = n)
    (hx : x.length = n) :
    solve epetra_solve n a b x
        = strategy_solver epetra_solve amesos_solve aztec_solve (solve_strategy n) n a b x ∧
    (n < 300 → solve_strategy n = Strategy.Direct_Small ∧
        solve epetra_solve n a b x = gsl_solve n a b x) ∧
    (300 ≤ n → solve_strategy n = Strategy.Direct_Large_Dense ∧
        solve epetra_solve n a b x = epetra_solve n a b x) ∧
    solve_strategy 299 = Strategy.Direct_Small ∧
    solve_strategy 300 = Strategy.Direct_Large_Dense ∧
    solve_strategy n ≠ Strategy.Direct_Sparse ∧
    solve_strategy n ≠ Strategy.Iterative_Krylov := by
  have hsq := umul_small n n hn (le_refl n)
  by_cases h : n < 300
  · have e : solve epetra_solve n a b x = gsl_solve n a b x := by
      simp [solve, Check, ha, hb, hx, hsq, h]
    refine ⟨by simp [solve_strategy, strategy_solver, h, e], fun _ => ⟨by simp [solve_strategy, h], e⟩,
      fun h' => absurd h (by omega), by decide, by decide, by simp [solve_strategy, h],
      by simp [solve_strategy, h]⟩
  · have e : solve epetra_solve n a b x = epetra_solve n a b x := by
      simp [solve, Check, ha, hb, hx, hsq, h]
    refine ⟨by simp [solve_strategy, strategy_solver, h, e], fun h' => absurd h' h,
      fun _ => ⟨by simp [solve_strategy, h], e⟩, by decide, by decide,
      by simp [solve_strategy, h], by simp [solve_strategy, h]⟩

/-- C4 (witness): at `n = 300` the probe standing for the Direct-Large-Dense adapter is what
runs, and at `n = 1` it is `gsl_solve`. -/
theorem C4_solve_dispatch_witness :
    solve epetra_probe 300 (List.replicate 90000 (0 : ℚ)) (List.replicate 300 0)
        (List.replicate 300 0)
      = epetra_probe 300 (List.replicate 90000 (0 : ℚ)) (List.replicate 300 0)
        (List.replicate 300 0) ∧
    solve epetra_probe 1 [(2 : ℚ)] [1] [0] = gsl_solve 1 [(2 : ℚ)] [1] [0] :=
  ⟨((C4_solve_dispatch epetra_probe epetra_probe epetra_probe 300
      (List.replicate 90000 (0 : ℚ)) (List.replicate 300 0) (List.replicate 300 0)
      (by decide) (List.length_replicate _ _) (List.length_replicate _ _)
      (List.length_replicate _ _)).2.2.1 (by decide)).2,
   ((C4_solve_dispatch epetra_probe epetra_probe epetra_probe 1 [(2 : ℚ)] [1] [0]
      (by decide) (by simp) (by simp) (by simp)).2.1 (by decide)).2⟩

/-- C5 (evaluation at the failing input): for `n = 65536`, an empty `A` (length `0`, not
`n*n = 4294967296`) and `b`, `x` of length `n`, all three checks of `solve` pass, because
`size()*size()` is `0` in `unsigned` arithmetic, and the Direct-Large-Dense adapter is
invoked on the empty buffer, whatever that adapter is. -/
theorem C5_solve_accepts_empty_matrix :
    ([] : List ℚ).length ≠ 65536 * 65536 ∧
    ∀ epetra_solve : Solver ℚ,
      solve epetra_solve 65536 [] (List.replicate 65536 0) (List.replicate 65536 0)
        = epetra_solve 65536 [] (List.replicate 65536 0) (List.replicate 65536 0) := by
  refine ⟨by decide, fun e => ?_⟩
  exact solve_wrapped_empty e _ _ (List.length_replicate _ _) (List.length_replicate _ _)

/-- C10 (evaluation): `aztec_solve` declares `tolerance` as `int const` with initializer
`1.0E-6`, which truncates to `0`; for `n = 1`, `A = [1]`, `b = [1]`, `x = [0]` the engine's
`Iterate` is called with `10000` iterations and tolerance `0`, which is not positive and is
not `1.0E-6`. -/
theorem C10_aztec_tolerance_is_zero :
    double_to_int 1.0E-6 = 0 ∧
    ¬ (0 < ((double_to_int 1.0E-6 : Int) : ℚ)) ∧
    ((double_to_int 1.0E-6 : Int) : ℚ) ≠ 1.0E-6 ∧
    ∀ Iterate : Int → ℚ → Solver ℚ,
      aztec_solve Iterate 1 [1] [1] [0] = Iterate 10000 0 1 [1] [1] [0] := by
  have h : double_to_int 1.0E-6 = 0 := by
    norm_num [double_to_int]
    decide
  refine ⟨h, by rw [h]; simp, by rw [h]; norm_num, fun I => ?_⟩
  simp [aztec_solve, Check, umul, UINT_MOD, h]

end DispatchClaims

/-! ## Claims on the reference direct solver -/

section SolverClaims

variable {K : Type} [LinearOrderedField K]

/-- The scenario of spec section 8 evaluated: `n = 2`, `A = [4,3,6,3]`, `b = [1,2]`. The
pivot search exchanges the two rows; `a_data` ends as the packed factors `[6,3,2/3,1]` and
`x_data` as `[1/2,-1/3]`, whatever the output buffer held before. -/
theorem gsl_solve_scenario (x0 x1 : ℚ) :
    gsl_solve 2 [(4 : ℚ), 3, 6, 3] [1, 2] [x0, x1]
      = ⟨⟨[6, 3, 2 / 3, 1], [1, 2], [1 / 2, -1 / 3]⟩, none⟩ := by
  have r1 : List.range' 0 1 = [0] := rfl
  have r2 : List.range' 0 2 = [0, 1] := rfl
  have r3 : List.range' 1 1 = [1] := rfl
  have r4 : List.range 2 = [0, 1] := rfl
  norm_num [gsl_solve, Check, umul, UINT_MOD, gsl_linalg_LU_decomp, forLoop, LU_step, LU_pivot,
    LU_eliminate, gsl_matrix_swap_rows, gsl_permutation_swap, gsl_matrix_get, gsl_matrix_set,
    gsl_linalg_LU_solve, singular, gsl_permute_vector, trsv_lower_unit, trsv_upper_nonunit,
    r1, r2, r3, r4, abs_of_pos]

theorem solve_scenario (epetra_solve : Solver ℚ) (x0 x1 : ℚ) :
    solve epetra_solve 2 [(4 : ℚ), 3, 6, 3] [1, 2] [x0, x1]
      = ⟨⟨[6, 3, 2 / 3, 1], [1, 2], [1 / 2, -1 / 3]⟩, none⟩ := by
  rw [← gsl_solve_scenario x0 x1]
  simp [solve, Check, umul, UINT_MOD]

/-- C8 (counterexample): for `n = 2`, `A = [4,3,6,3]`, `b = [1,2]` the vector `solve` leaves
in `x_data` is `[1/2, -1/3]`; neither entry is within `1/2` of the stated `-0.3333` and
`1.7778`, and the stated vector does not satisfy the first equation `4*x0 + 3*x1 = 1`. -/
theorem C8_solve_scenario_is_not_the_stated_vector :
    (solve epetra_probe 2 [(4 : ℚ), 3, 6, 3] [1, 2] [0, 0]).state.x_data = [1 / 2, -1 / 3] ∧
    ¬ (|(solve epetra_probe 2 [(4 : ℚ), 3, 6, 3] [1, 2] [0, 0]).state.x_data.getD 0 0
          - (-0.3333)| ≤ 1 / 2) ∧
    ¬ (|(solve epetra_probe 2 [(4 : ℚ), 3, 6, 3] [1, 2] [0, 0]).state.x_data.getD 1 0
          - 1.7778| ≤ 1 / 2) ∧
    (4 * (-0.3333) + 3 * 1.7778 : ℚ) ≠ 1 := by
  rw [solve_scenario]
  refine ⟨rfl, ?_, ?_, ?_⟩
  · norm_num [abs_le]
  · norm_num [abs_le]
  · norm_num

/-- C8 (amended): for `n = 2`, `A = [4,3,6,3]` (row0 = [4,3], row1 = [6,3]) and `b = [1,2]`,
`solve` returns normally with `x = [1/2, -1/3]`, within `0.0001` of `[0.5, -0.3333]`, and
that `x` satisfies `4*x0 + 3*x1 = 1` and `6*x0 + 3*x1 = 2`. -/
theorem C8_solve_scenario (epetra_solve : Solver ℚ) (y0 y1 : ℚ) :
    (solve epetra_solve 2 [(4 : ℚ), 3, 6, 3] [1, 2] [y0, y1]).error = none ∧
    (solve epetra_solve 2 [(4 : ℚ), 3, 6, 3] [1, 2] [y0, y1]).state.x_data = [1 / 2, -1 / 3] ∧
    |(solve epetra_solve 2 [(4 : ℚ), 3, 6, 3] [1, 2] [y0, y1]).state.x_data.getD 0 0 - 0.5|
      ≤ 0.0001 ∧
    |(solve epetra_solve 2 [(4 : ℚ), 3, 6, 3] [1, 2] [y0, y1]).state.x_data.getD 1 0 - (-0.3333)|
      ≤ 0.0001 ∧
    4 * (solve epetra_solve 2 [(4 : ℚ), 3, 6, 3] [1, 2] [y0, y1]).state.x_data.getD 0 0
      + 3 * (solve epetra_solve 2 [(4 : ℚ), 3, 6, 3] [1, 2] [y0, y1]).state.x_data.getD 1 0 = 1 ∧
    6 * (solve epetra_solve 2 [(4 : ℚ), 3, 6, 3] [1, 2] [y0, y1]).state.x_data.getD 0 0
      + 3 * (solve epetra_solve 2 [(4 : ℚ), 3, 6, 3] [1, 2] [y0, y1]).state.x_data.getD 1 0 = 2 := by
  rw [solve_scenario]
  refine ⟨rfl, rfl, ?_, ?_, ?_, ?_⟩
  · norm_num [abs_le]
  · norm_num [abs_le]
  · norm_num
  · norm_num

theorem solve_eq_gsl_solve (epetra_solve : Solver K) (n : Nat) (a b x : List K)
    (h300 : n < 300) (ha : a.length = n * n) (hb : b.length = n) (hx : x.length = n) :
    solve epetra_solve n a b x = gsl_solve n a b x := by
  simp [solve, Check, ha, hb, hx, umul_small n n (by omega) (le_refl n), h300]

/-- C6 (counterexample): for `n = 2`, `A = [4,3,6,3]`, `b = [1,2]` the caller's `a_data` after
`gsl_solve`, and after `solve`, is `[6,3,2/3,1]`, not what it was before the call. -/
theorem C6_gsl_solve_overwrites_a_data :
    (gsl_solve 2 [(4 : ℚ), 3, 6, 3] [1, 2] [0, 0]).state.a_data = [6, 3, 2 / 3, 1] ∧
    (solve epetra_probe 2 [(4 : ℚ), 3, 6, 3] [1, 2] [0, 0]).state.a_data = [6, 3, 2 / 3, 1] ∧
    ([6, 3, 2 / 3, 1] : List ℚ) ≠ [4, 3, 6, 3] := by
  rw [solve_scenario, gsl_solve_scenario]
  refine ⟨rfl, rfl, ?_⟩
  intro h
  have := (List.cons.inj h).1
  norm_num at this

/-- The permutation left by the decomposition is a rearrangement of `0 .. n-1`. -/
theorem gsl_linalg_LU_decomp_perm (n : Nat) (a : List K) (hn : 1 ≤ n) (ha : a.length = n * n) :
    (gsl_linalg_LU_decomp n a).p.Perm (List.range n) := by
  obtain ⟨_, hp, hsurj, _⟩ := gsl_linalg_LU_decomp_spec n a hn ha
  have hsub : List.range n ⊆ (gsl_linalg_LU_decomp n a).p := by
    intro v hv
    obtain ⟨r, hr, e⟩ := hsurj v (List.mem_range.mp hv)
    have hr' : r < (gsl_linalg_LU_decomp n a).p.length := by rw [hp]; exact hr
    rw [List.getD_eq_getElem _ _ hr'] at e
    rw [← e]
    exact List.getElem_mem _
  have hsp := List.subperm_of_subset (List.nodup_range n) hsub
  exact (hsp.perm_of_length_le (by simp [hp])).symm

/-- The decomposition of the scenario block: the rows are exchanged once. -/
theorem gsl_linalg_LU_decomp_scenario :
    gsl_linalg_LU_decomp 2 [(4 : ℚ), 3, 6, 3] = ⟨[6, 3, 2 / 3, 1], [1, 0], -1⟩ := by
  have r1 : List.range' 0 1 = [0] := rfl
  have r2 : List.range' 0 2 = [0, 1] := rfl
  have r3 : List.range' 1 1 = [1] := rfl
  have r4 : List.range 2 = [0, 1] := rfl
  norm_num [gsl_linalg_LU_decomp, forLoop, LU_step, LU_pivot,
    LU_eliminate, gsl_matrix_swap_rows, gsl_permutation_swap, gsl_matrix_get, gsl_matrix_set,
    r1, r2, r3, r4, abs_of_pos]

/-- C6 (amended): the reference direct solver factorizes `A` in place in the caller's
buffer. For every `n` with `1 <= n < 65536` and correctly sized buffers, after `gsl_solve`
(and after `solve` when `n < 300`) `b_data` is element for element what it was, `x_data`
still has length `n`, and `a_data` holds the packed factors left by the decomposition: its
permutation `p` is a rearrangement of `0 .. n-1`, and row `p[i]` of the original `A` is row
`i` of `L*U`, `L` being the unit lower triangle and `U` the upper triangle of the new
`a_data`. -/
theorem C6_gsl_solve_factorizes_in_place (epetra_solve : Solver K) (n : Nat) (a b x : List K)
    (h1 : 1 ≤ n) (hn : n < 65536) (ha : a.length = n * n) (hb : b.length = n)
    (hx : x.length = n) :
    (gsl_solve n a b x).state.b_data = b ∧
    (gsl_solve n a b x).state.x_data.length = n ∧
    (gsl_solve n a b x).state.a_data = (gsl_linalg_LU_decomp n a).A ∧
    (gsl_solve n a b x).state.a_data.length = n * n ∧
    (gsl_linalg_LU_decomp n a).p.Perm (List.range n) ∧
    (∀ i k, i < n → k < n →
      gsl_matrix_get n a ((gsl_linalg_LU_decomp n a).p.getD i 0) k
        = (∑ t in Finset.range i,
            gsl_matrix_get n (gsl_solve n a b x).state.a_data i t
              * upper (gsl_matrix_get n (gsl_solve n a b x).state.a_data) t k)
          + upper (gsl_matrix_get n (gsl_solve n a b x).state.a_data) i k) ∧
    (n < 300 → solve epetra_solve n a b x = gsl_solve n a b x) := by
  obtain ⟨hA, hp, _, hLU⟩ := gsl_linalg_LU_decomp_spec n a h1 ha
  have hstate : (gsl_solve n a b x).state.b_data = b ∧
      (gsl_solve n a b x).state.x_data.length = n ∧
      (gsl_solve n a b x).state.a_data = (gsl_linalg_LU_decomp n a).A := by
    unfold gsl_solve
    simp only [Check, ha, hb, hx, umul_small n n hn (le_refl n), beq_self_eq_true, if_true]
    cases hs : gsl_linalg_LU_solve n (gsl_linalg_LU_decomp n a).A (gsl_linalg_LU_decomp n a).p b x with
    | none => exact ⟨rfl, hx, rfl⟩
    | some w =>
      refine ⟨rfl, ?_, rfl⟩
      show w.length = n
      have hdiag : ∀ i, i < n → gsl_matrix_get n (gsl_linalg_LU_decomp n a).A i i ≠ 0 := by
        intro i hi h0
        have : singular n (gsl_linalg_LU_decomp n a).A = true := by
          unfold singular
          rw [List.any_eq_true]
          exact ⟨i, List.mem_range.mpr hi, by simpa using h0⟩
        simp [gsl_linalg_LU_solve, this] at hs
      obtain ⟨w', _, e, hl, _, _⟩ := gsl_linalg_LU_solve_spec n (gsl_linalg_LU_decomp n a).A
        (gsl_linalg_LU_decomp n a).p b x hp hb hx hdiag
      rw [hs] at e
      rw [Option.some.inj e]
      exact hl
  obtain ⟨s1, s2, s3⟩ := hstate
  refine ⟨s1, s2, s3, by rw [s3]; exact hA, gsl_linalg_LU_decomp_perm n a h1 ha, ?_, fun h300 =>
    solve_eq_gsl_solve epetra_solve n a b x h300 ha hb hx⟩
  rw [s3]
  exact hLU

/-- C6 (witness): `n = 2`, `A = [4,3,6,3]`, `b = [1,2]`: `b_data` is unchanged, `x_data` has
length 2, `a_data` is `[6,3,2/3,1]`, the permutation `[1,0]` rearranges `[0,1]`, and the
rows `[6,3]` and `[4,3]` of `A` are the rows of `L*U`: `6 = U00`, `3 = U01`,
`4 = L10*U00`, `3 = L10*U01 + U11`. -/
theorem C6_gsl_solve_factorizes_in_place_witness :
    (gsl_solve 2 [(4 : ℚ), 3, 6, 3] [1, 2] [0, 0]).state.b_data = [1, 2] ∧
    (gsl_solve 2 [(4 : ℚ), 3, 6, 3] [1, 2] [0, 0]).state.x_data.length = 2 ∧
    (gsl_solve 2 [(4 : ℚ), 3, 6, 3] [1, 2] [0, 0]).state.a_data = [6, 3, 2 / 3, 1] ∧
    (gsl_solve 2 [(4 : ℚ), 3, 6, 3] [1, 2] [0, 0]).state.a_data.length = 2 * 2 ∧
    ([1, 0] : List Nat).Perm (List.range 2) ∧
    (∀ i k, i < 2 → k < 2 →
      gsl_matrix_get 2 [(4 : ℚ), 3, 6, 3] (([1, 0] : List Nat).getD i 0) k
        = (∑ t in Finset.range i,
            gsl_matrix_get 2 [(6 : ℚ), 3, 2 / 3, 1] i t
              * upper (gsl_matrix_get 2 [(6 : ℚ), 3, 2 / 3, 1]) t k)
          + upper (gsl_matrix_get 2 [(6 : ℚ), 3, 2 / 3, 1]) i k) ∧
    solve epetra_probe 2 [(4 : ℚ), 3, 6, 3] [1, 2] [0, 0]
      = gsl_solve 2 [(4 : ℚ), 3, 6, 3] [1, 2] [0, 0] := by
  have h := C6_gsl_solve_factorizes_in_place epetra_probe 2 [(4 : ℚ), 3, 6, 3] [1, 2] [0, 0]
    (by decide) (by decide) (by decide) (by decide) (by decide)
  rw [gsl_linalg_LU_decomp_scenario] at h
  obtain ⟨h1, h2, h3, h4, h5, h6, h7⟩ := h
  rw [h3] at h6
  exact ⟨h1, h2, h3, h4, h5, h6, h7 (by decide)⟩

end SolverClaims

end Linear_Algebra
